import Mathlib

/-
Verification development for the markirovka report pipeline.

Shallow embedding of the Python sources under scripts/: the token store
(get_tokens.py), token expiry check (token_utils.py), region manager
(region_manager.py), download poller (main.py / get_report.py), scheduler
(scheduler.py), regional aggregation (send_daily_report.py) and the CSV
ingestion path (main.py), together with theorems about them.
-/

namespace Markirovka

/-! ## Generic association-list dictionary (Python dict model)

Python dicts keep one entry per key; assignment `d[k] = v` updates the
existing entry in place or appends a new one at the end.  `dictUpdate`
mirrors `d.update(other)`. -/

def alookup {α β : Type} [DecidableEq α] (k : α) : List (α × β) → Option β
  | [] => none
  | e :: t => if e.1 = k then some e.2 else alookup k t

def dictSet {α β : Type} [DecidableEq α] (d : List (α × β)) (k : α) (v : β) :
    List (α × β) :=
  if d.any (fun e => e.1 = k) then
    d.map (fun e => if e.1 = k then (k, v) else e)
  else
    d ++ [(k, v)]

def dictUpdate {α β : Type} [DecidableEq α] (old new : List (α × β)) :
    List (α × β) :=
  new.foldl (fun d e => dictSet d e.1 e.2) old

def dictKeys {α β : Type} (d : List (α × β)) : List α := d.map Prod.fst

/-- Occurrence count of an element in a list. -/
def countElem {α : Type} [DecidableEq α] (x : α) : List α → Nat
  | [] => 0
  | y :: t => (if y = x then 1 else 0) + countElem x t

/-! ## Token store merge (get_tokens.py, save_tokens, lines 236-265)

`save_tokens(tokens)` loads the existing `true_api_tokens.json` token map,
runs `existing_tokens.update(tokens)` and writes the merged map back with a
fresh shared `generated_at` timestamp. -/

structure TokenStore where
  tokens : List (String × String)
  generated_at : String
deriving DecidableEq, Repr

def save_tokens (existing acquired : List (String × String)) (now : String) :
    TokenStore :=
  { tokens := dictUpdate existing acquired, generated_at := now }

/-! ## Token expiry check (token_utils.py, is_token_expired, lines 245-258)

token_utils.py does `import datetime` (the module), yet line 252 evaluates
`datetime.fromisoformat(...)`: an attribute lookup on the module object.
The datetime module has no attribute named fromisoformat (the classmethod
lives on the datetime.datetime and datetime.date classes), so the lookup
raises AttributeError, which the blanket `except Exception` converts to
`return True`.  We embed the module attribute lookup explicitly. -/

/-- Public attributes of the Python datetime module relevant to attribute
lookup: the classes and module-level constants it actually exposes. -/
def datetimeModuleAttrs : List String :=
  ["date", "datetime", "time", "timedelta", "timezone", "tzinfo",
   "MINYEAR", "MAXYEAR", "UTC"]

inductive PyErr where
  | attributeError
  | valueError
deriving DecidableEq, Repr

def datetimeModuleGetattr (attr : String) : Except PyErr Unit :=
  if attr ∈ datetimeModuleAttrs then Except.ok () else Except.error PyErr.attributeError

/-- Input dictionary of is_token_expired: it only reads the optional
generated_at field. -/
structure TokenData where
  generated_at : Option String
deriving DecidableEq, Repr

def is_token_expired (td : TokenData) : Bool :=
  match td.generated_at with
  | none => true
  | some _ =>
    match datetimeModuleGetattr "fromisoformat" with
    | Except.error _ => true
    | Except.ok _ => false

/-! ## Region manager (region_manager.py, add_tc_to_region, lines 105-141)

regions.json is a JSON object: region id to an object holding name, emails
and tc_list.  `add_tc_to_region` appends the TC to the chosen region when
absent and removes its first occurrence from the tc_list of every other
region (Python list.remove removes the first occurrence only). -/

structure RegionEntry where
  name : String
  emails : List String
  tc_list : List String
deriving DecidableEq, Repr

abbrev Regions := List (String × RegionEntry)

/-- Python list.remove: drop the first occurrence only (identity when
absent, matching the guarded call in the source). -/
def removeFirst (x : String) : List String → List String
  | [] => []
  | y :: t => if y = x then t else y :: removeFirst x t

def countOcc (x : String) : List String → Nat
  | [] => 0
  | y :: t => (if y = x then 1 else 0) + countOcc x t

/-- Effect of one add_tc_to_region call on a single region entry: the
chosen region gets the TC appended, every other region loses its first
occurrence of the TC. -/
def tcUpdateEntry (tc_name region_id : String) (kv : String × RegionEntry) :
    String × RegionEntry :=
  if kv.1 = region_id then
    (kv.1, { kv.2 with tc_list := kv.2.tc_list ++ [tc_name] })
  else
    (kv.1, { kv.2 with tc_list := removeFirst tc_name kv.2.tc_list })

def add_tc_to_region (tc_name region_id : String) (rd : Regions) :
    Regions × Bool :=
  match alookup region_id rd with
  | none => (rd, false)
  | some entry =>
    if tc_name ∈ entry.tc_list then (rd, true)
    else (rd.map (tcUpdateEntry tc_name region_id), true)

def applyTcCalls (calls : List (String × String)) (rd : Regions) : Regions :=
  calls.foldl (fun s c => (add_tc_to_region c.1 c.2 s).1) rd

/-- Total number of occurrences of a TC across all region tc_lists. -/
def tcOccurrences (tc : String) (rd : Regions) : Nat :=
  (rd.map (fun kv => countOcc tc kv.2.tc_list)).sum

/-! ## Download poller (main.py, download_tasks_for_token, lines 270-313;
get_report.py, ReportDownloader.monitor_and_download, lines 131-161)

For each pending (task_id, group_code) line the caller invokes
monitor_and_download.  Its outcome is one of: result downloaded
(SUCCESS then file written, returns True), benign skip on HTTP 403
(download_result_file returns True), empty body 204 (returns True),
remote status FAILED (error logged, returns False), download step raised
(returns False), 60 poll attempts exhausted (returns False), or an
exception escaping to the caller.  The caller appends the task to
remaining_tasks unless the call returned True, then rewrites
pending_tasks.txt, deleting the file when nothing remains. -/

abbrev PendingTask := String × Nat

inductive PollOutcome where
  | downloaded
  | skipForbidden
  | skipEmpty
  | failedStatus
  | downloadError
  | attemptsExhausted
  | raisedError
deriving DecidableEq, Repr

/-- Result of ReportDownloader.monitor_and_download for a task with the
given poll outcome: ok b models a normal return of b, error models an
exception propagating to the caller. -/
def monitor_and_download : PollOutcome → Except Unit Bool
  | PollOutcome.downloaded => Except.ok true
  | PollOutcome.skipForbidden => Except.ok true
  | PollOutcome.skipEmpty => Except.ok true
  | PollOutcome.failedStatus => Except.ok false
  | PollOutcome.downloadError => Except.ok false
  | PollOutcome.attemptsExhausted => Except.ok false
  | PollOutcome.raisedError => Except.error ()

/-- The caller keeps a task pending unless monitor_and_download returned
True (the except branch also appends to remaining_tasks). -/
def keepPending (o : PollOutcome) : Bool :=
  match monitor_and_download o with
  | Except.ok true => false
  | Except.ok false => true
  | Except.error _ => true

/-- A remove or skip rule fired for this outcome. -/
def taskRemoved (o : PollOutcome) : Bool := !keepPending o

def remainingTasksAfter (tasks : List PendingTask)
    (outcome : PendingTask → PollOutcome) : List PendingTask :=
  tasks.filter (fun t => keepPending (outcome t))

/-- download_tasks_for_token: none models the pending file being removed
(all tasks drained); some l models the file rewritten with list l. -/
def download_tasks_for_token (tasks : List PendingTask)
    (outcome : PendingTask → PollOutcome) : Option (List PendingTask) :=
  let rem := remainingTasksAfter tasks outcome
  if rem.isEmpty then none else some rem

/-- The persisted pending set after a poller invocation (empty when the
file was deleted). -/
def pendingAfter (tasks : List PendingTask)
    (outcome : PendingTask → PollOutcome) : List PendingTask :=
  (download_tasks_for_token tasks outcome).getD []

/-! ## Scheduler (scheduler.py, is_time_to_run lines 92-111 and
check_and_run_tasks lines 247-282)

is_time_to_run parses the configured "HH:MM", rebuilds it on the current
day with second and microsecond zeroed, rejects when the hour has passed
or the minute is more than two past, and otherwise accepts when the signed
difference lies in [0, 120] seconds.  check_and_run_tasks fires every
stage whose time check passes; the loop repeats every check_interval
seconds (default 60) and keeps no record of having fired already. -/

structure WallClock where
  hour : Nat
  minute : Nat
  second : Nat
  micro : Nat
deriving DecidableEq, Repr

def microsOfDay (t : WallClock) : Int :=
  ((t.hour * 3600 + t.minute * 60 + t.second) * 1000000 + t.micro : Nat)

def taskMicros (taskHour taskMinute : Nat) : Int :=
  ((taskHour * 3600 + taskMinute * 60) * 1000000 : Nat)

def is_time_to_run (now : WallClock) (taskHour taskMinute : Nat) : Bool :=
  if now.hour > taskHour ∨ (now.hour = taskHour ∧ now.minute > taskMinute + 2) then
    false
  else
    let diff : Int := microsOfDay now - taskMicros taskHour taskMinute
    decide (0 ≤ diff ∧ diff ≤ 120 * 1000000)

inductive Stage where
  | dailyReport
  | tokenRefresh
  | emailReports
deriving DecidableEq, Repr

structure SchedulerConfig where
  dailyReportTime : Nat × Nat
  tokenRefreshTime : Nat × Nat
  emailTime : Nat × Nat
deriving DecidableEq, Repr

def check_and_run_tasks (cfg : SchedulerConfig) (now : WallClock) : List Stage :=
  (if is_time_to_run now cfg.dailyReportTime.1 cfg.dailyReportTime.2 then
    [Stage.dailyReport] else []) ++
  (if is_time_to_run now cfg.tokenRefreshTime.1 cfg.tokenRefreshTime.2 then
    [Stage.tokenRefresh] else []) ++
  (if is_time_to_run now cfg.emailTime.1 cfg.emailTime.2 then
    [Stage.emailReports] else [])

/-- How many times a stage fires across the given sequence of scheduler
checks (one wall-clock instant per loop iteration of run_continuously). -/
def firesOnDay (cfg : SchedulerConfig) (checks : List WallClock) (s : Stage) : Nat :=
  (checks.map (fun t => countElem s (check_and_run_tasks cfg t))).sum

/-! ## Token acquisition for multi-pair certificates (get_tokens.py,
get_tokens, lines 153-187)

For one certificate the code calls get_auth_data() once, signs the single
returned challenge once, and then loops over the persisted ТС-ИНН pairs,
exchanging the very same (uuid, signature) for a token per pair; each
obtained token is stored under the composite key "name - tc".  We model
the challenge supply as a counter: get_auth_data returns the next fresh
uuid and advances the counter. -/

structure TCPair where
  tc : String
  inn : String
deriving DecidableEq, Repr

def get_auth_data (supply : Nat) : Nat × Nat := (supply, supply + 1)

structure ExchangeRec where
  key : String
  uuid : Nat
  inn : Option String
deriving DecidableEq, Repr

/-- One simpleSignIn exchange attempt for a pair: the inn parameter is
omitted when the stored ИНН is blank. -/
def pairExchange (name : String) (uuid : Nat) (p : TCPair) : ExchangeRec :=
  { key := name ++ " - " ++ p.tc
  , uuid := uuid
  , inn := if p.inn.trim = "" then none else some p.inn }

/-- The exchanges performed for one certificate with persisted pairs, plus
the challenge-supply counter afterwards.  One get_auth_data call happens
before the loop; every pair reuses its uuid. -/
def process_cert_pairs (name : String) (pairs : List TCPair) (supply : Nat) :
    List ExchangeRec × Nat :=
  let drawn := get_auth_data supply
  (pairs.map (pairExchange name drawn.1), drawn.2)

/-- Tokens collected from the exchanges: only successful exchanges store a
token, under the composite key of the exchange. -/
def collectPairTokens (getTok : ExchangeRec → Option String)
    (exs : List ExchangeRec) : List (String × String) :=
  exs.filterMap (fun e => (getTok e).map (fun t => (e.key, t)))

/-! ## CSV ingestion (main.py, read_csv_with_encoding, lines 192-228)

The function opens the file with each encoding of
[cp1251, utf-8-sig, utf-8, windows-1251, latin1] in turn; a
UnicodeDecodeError (or any other exception) moves on to the next
encoding.  On the first successful decode it splits the text into lines
(readlines), finds the first line that is non-blank after strip() as the
header, and returns the number of non-blank lines different from the
header string.  When every attempt fails it logs an error and returns 0.

We model bytes and decoded characters as natural numbers (byte values and
Unicode code points).  windows-1251 is the same codec as cp1251. -/

/-- Sequence a byte-wise partial map over a list, failing when any element
fails (the decode model of a whole file). -/
def mapPartial {α β : Type} (f : α → Option β) : List α → Option (List β)
  | [] => some []
  | x :: t =>
    match f x, mapPartial f t with
    | some y, some ys => some (y :: ys)
    | _, _ => none

/-- Decoded code points of cp1251 bytes 0x80 to 0xBF in order; byte 0x98
is unassigned in cp1251 and decoding it fails. -/
def cp1251PunctTable : List (Option Nat) :=
  [some 0x402, some 0x403, some 0x201A, some 0x453, some 0x201E, some 0x2026,
   some 0x2020, some 0x2021, some 0x20AC, some 0x2030, some 0x409, some 0x2039,
   some 0x40A, some 0x40C, some 0x40B, some 0x40F,
   some 0x452, some 0x2018, some 0x2019, some 0x201C, some 0x201D, some 0x2022,
   some 0x2013, some 0x2014, none, some 0x2122, some 0x459, some 0x203A,
   some 0x45A, some 0x45C, some 0x45B, some 0x45F,
   some 0xA0, some 0x40E, some 0x45E, some 0x408, some 0xA4, some 0x490,
   some 0xA6, some 0xA7, some 0x401, some 0xA9, some 0x404, some 0xAB,
   some 0xAC, some 0xAD, some 0xAE, some 0x407,
   some 0xB0, some 0xB1, some 0x406, some 0x456, some 0x491, some 0xB5,
   some 0xB6, some 0xB7, some 0x451, some 0x2116, some 0x454, some 0xBB,
   some 0x458, some 0x405, some 0x455, some 0x457]

def cp1251DecodeByte (b : Nat) : Option Nat :=
  if b < 0x80 then some b
  else if b < 0xC0 then ((cp1251PunctTable.get? (b - 0x80)).getD none)
  else if b < 0x100 then some (0x410 + (b - 0xC0))
  else none

def cp1251Decode (bs : List Nat) : Option (List Nat) :=
  mapPartial cp1251DecodeByte bs

/-- latin1 (iso-8859-1) decodes every byte to the same code point, so it
never raises. -/
def latin1DecodeByte (b : Nat) : Option Nat :=
  if b < 0x100 then some b else none

def latin1Decode (bs : List Nat) : Option (List Nat) :=
  mapPartial latin1DecodeByte bs

/-- Standard UTF-8 decoder, one byte per step.  pending counts the
continuation bytes still expected, acc accumulates the code point of the
current multi-byte sequence, and lo/hi carry the valid code-point range of
that sequence (rejecting overlong forms, values beyond U+10FFFF, and
surrogates, as the Python utf-8 codec does). -/
def utf8DecodeAux : List Nat → Nat → Nat → Nat → Nat → Option (List Nat)
  | [], pending, _, _, _ => if pending = 0 then some [] else none
  | b :: rest, 0, _, _, _ =>
    if b < 0x80 then (utf8DecodeAux rest 0 0 0 0).map (fun cs => b :: cs)
    else if b < 0xC2 then none
    else if b < 0xE0 then utf8DecodeAux rest 1 (b - 0xC0) 0x80 0x7FF
    else if b < 0xF0 then utf8DecodeAux rest 2 (b - 0xE0) 0x800 0xFFFF
    else if b < 0xF5 then utf8DecodeAux rest 3 (b - 0xF0) 0x10000 0x10FFFF
    else none
  | b :: rest, pending + 1, acc, lo, hi =>
    if 0x80 ≤ b ∧ b < 0xC0 then
      if pending = 0 then
        if lo ≤ acc * 0x40 + (b - 0x80) ∧ acc * 0x40 + (b - 0x80) ≤ hi ∧
            ¬ (0xD800 ≤ acc * 0x40 + (b - 0x80) ∧ acc * 0x40 + (b - 0x80) ≤ 0xDFFF) then
          (utf8DecodeAux rest 0 0 0 0).map
            (fun cs => (acc * 0x40 + (b - 0x80)) :: cs)
        else none
      else utf8DecodeAux rest pending (acc * 0x40 + (b - 0x80)) lo hi
    else none

def utf8Decode (bs : List Nat) : Option (List Nat) :=
  utf8DecodeAux bs 0 0 0 0

/-- utf-8-sig: strip one leading byte-order mark, then decode as utf-8. -/
def utf8SigDecode (bs : List Nat) : Option (List Nat) :=
  match bs with
  | 0xEF :: 0xBB :: 0xBF :: rest => utf8Decode rest
  | _ => utf8Decode bs

def utf8EncodeChar (c : Nat) : List Nat :=
  if c < 0x80 then [c]
  else if c < 0x800 then [0xC0 + c / 0x40, 0x80 + c % 0x40]
  else if c < 0x10000 then
    [0xE0 + c / 0x1000, 0x80 + (c / 0x40) % 0x40, 0x80 + c % 0x40]
  else
    [0xF0 + c / 0x40000, 0x80 + (c / 0x1000) % 0x40,
     0x80 + (c / 0x40) % 0x40, 0x80 + c % 0x40]

def joinAll {α : Type} : List (List α) → List α
  | [] => []
  | l :: ls => l ++ joinAll ls

def utf8Encode (text : List Nat) : List Nat :=
  joinAll (text.map utf8EncodeChar)

def cp1251EncodeChar (c : Nat) : Option Nat :=
  if c < 0x80 then some c
  else if 0x410 ≤ c ∧ c ≤ 0x44F then some (0xC0 + (c - 0x410))
  else
    match cp1251PunctTable.findIdx? (fun e => e = some c) with
    | some i => some (0x80 + i)
    | none => none

def cp1251Encode (text : List Nat) : Option (List Nat) :=
  mapPartial cp1251EncodeChar text

/-- Code points stripped by Python str.strip() (the White_Space set). -/
def isPySpace (c : Nat) : Bool :=
  c ∈ [0x09, 0x0A, 0x0B, 0x0C, 0x0D, 0x1C, 0x1D, 0x1E, 0x1F, 0x20,
       0x85, 0xA0, 0x1680, 0x2000, 0x2001, 0x2002, 0x2003, 0x2004, 0x2005,
       0x2006, 0x2007, 0x2008, 0x2009, 0x200A, 0x2028, 0x2029, 0x202F,
       0x205F, 0x3000]

/-- A line passes the `line.strip()` truthiness test exactly when it has a
character that strip does not remove. -/
def hasVisibleChar (l : List Nat) : Bool :=
  l.any (fun c => !isPySpace c)

/-- readlines: split the decoded text after every newline, keeping the
newline at the end of each line; a trailing chunk without newline is a
line too. -/
def splitLines : List Nat → List (List Nat)
  | [] => []
  | c :: t =>
    if c = 0x0A then [c] :: splitLines t
    else
      match splitLines t with
      | [] => [[c]]
      | l :: ls => (c :: l) :: ls

/-- The row count computed inside the successful-decode branch of
read_csv_with_encoding (main.py lines 198-219): the header is the first
non-blank line; count the non-blank lines that differ from it. -/
def countViolationRows (text : List Nat) : Nat :=
  let lines := splitLines text
  if lines.isEmpty then 0
  else
    match lines.find? hasVisibleChar with
    | none => 0
    | some header =>
      (lines.filter (fun l => hasVisibleChar l && l ≠ header)).length

/-- First successful attempt of the encoding loop.  One entry per encoding
in priority order: some text when that iteration decodes (and counts)
without raising, none when it raises (UnicodeDecodeError or any other
exception) and the loop continues. -/
def firstDecoded : List (Option (List Nat)) → Option (List Nat)
  | [] => none
  | a :: t =>
    match a with
    | some x => some x
    | none => firstDecoded t

/-- read_csv_with_encoding over the attempt outcomes: the count from the
first successful decode, 0 after exhausting the list. -/
def read_csv_with_encoding (attempts : List (Option (List Nat))) : Nat :=
  match firstDecoded attempts with
  | some text => countViolationRows text
  | none => 0

/-- The pure-decode attempt list for a concrete byte content:
[cp1251, utf-8-sig, utf-8, windows-1251, latin1], where windows-1251 is
the cp1251 codec again. -/
def decodeAttempts (bs : List Nat) : List (Option (List Nat)) :=
  [cp1251Decode bs, utf8SigDecode bs, utf8Decode bs, cp1251Decode bs,
   latin1Decode bs]

def read_csv_bytes (bs : List Nat) : Nat :=
  read_csv_with_encoding (decodeAttempts bs)

/-- Text alphabet for the encoding-robustness statement: ASCII without
carriage return, plus the Cyrillic block А..я that cp1251 covers
contiguously. -/
def sigmaChar (c : Nat) : Prop :=
  (c < 0x80 ∧ c ≠ 0x0D) ∨ (0x410 ≤ c ∧ c ≤ 0x44F)

instance (c : Nat) : Decidable (sigmaChar c) := by
  unfold sigmaChar
  infer_instance

/-- Code point of the cp1251 byte 0x80 + i (0 for the unassigned 0x98). -/
def punctVal (i : Nat) : Nat :=
  ((cp1251PunctTable.get? i).getD none).getD 0

/-- Total version of the cp1251 byte decoder (0 on the unassigned byte). -/
def cp1251MapByte (b : Nat) : Nat :=
  (cp1251DecodeByte b).getD 0

/-- Image of one text character after encoding to utf-8 and decoding the
bytes as cp1251 (the mojibake text of the first-successful-encoding path
when cp1251 accepts the utf-8 bytes). -/
def mojChar (c : Nat) : List Nat :=
  if c < 0x80 then [c]
  else [0x410 + c / 0x40, punctVal (c % 0x40)]

def mojText (text : List Nat) : List Nat :=
  joinAll (text.map mojChar)

/-! ## Report ingestion per certificate (main.py,
process_reports_for_token, lines 383-449)

For each CSV file in the reports directory: extract the product group code
from the filename (regex group followed by digits, first match), resolve
it through PRODUCT_GROUPS (skipping unknown codes with a warning), then
record the count returned by read_csv_with_encoding into the violations
map for the day.  The map entry is written unconditionally with whatever
count came back. -/

/-- PRODUCT_GROUPS: the fixed product-group taxonomy.  main.py imports it
from get_violations.py, absent from this tree; certificate_diagnostic.py
(lines 22-47) carries the same table, reproduced here. -/
def productGroupsTable : List (Nat × String) :=
  [(1, "Предметы одежды"), (2, "Обувные товары"), (3, "Табачная продукция"),
   (4, "Духи и туалетная вода"), (5, "Шины и покрышки"), (6, "Фотокамеры"),
   (8, "Молочная продукция"), (9, "Велосипеды"), (10, "Медицинские изделия"),
   (11, "Слабоалкогольные напитки"), (12, "Альтернативная табачная продукция"),
   (13, "Упакованная вода"), (14, "Товары из натурального меха"),
   (15, "Пиво"), (22, "Безалкогольное пиво"), (23, "Соковая продукция"),
   (26, "Ветеринарные препараты"), (27, "Игры и игрушки"),
   (28, "Радиоэлектронная продукция"), (21, "Морепродукты"), (17, "БАДы"),
   (19, "Антисептики"), (35, "Парфюмерия и косметика"),
   (38, "Лекарственные средства")]

def digitsToNat (cs : List Char) : Nat :=
  cs.foldl (fun n c => n * 10 + (c.toNat - 48)) 0

/-- First match of the pattern: literal group immediately followed by one
or more digits (re.search semantics: try each start position left to
right). -/
def findGroupCode : List Char → Option Nat
  | 'g' :: 'r' :: 'o' :: 'u' :: 'p' :: rest =>
    let ds := rest.takeWhile Char.isDigit
    if ds.isEmpty then findGroupCode ('r' :: 'o' :: 'u' :: 'p' :: rest)
    else some (digitsToNat ds)
  | _ :: t => findGroupCode t
  | [] => none

def extract_group_code (filename : String) : Option Nat :=
  findGroupCode filename.data

structure ReportFile where
  name : String
  attempts : List (Option (List Nat))
deriving Repr

/-- Body of the per-file loop: skip files without a recognizable group
code or with an unknown code; otherwise store the row count under the
group name (last writer wins). -/
def processFile (viol : List (String × Nat)) (f : ReportFile) :
    List (String × Nat) :=
  match extract_group_code f.name with
  | none => viol
  | some gc =>
    match alookup gc productGroupsTable with
    | none => viol
    | some pname => dictSet viol pname (read_csv_with_encoding f.attempts)

/-- The violations map built by process_reports_for_token for one day. -/
def process_reports_for_token (files : List ReportFile) :
    List (String × Nat) :=
  files.foldl processFile []

/-! ## Regional aggregation (send_daily_report.py,
generate_consolidated_report_by_region, lines 62-119)

cert_to_region maps every TC of every region to that region (later regions
overwrite earlier ones on key collision).  Each certificate report lands
in its region (Undefined if unmapped); each numeric violation count is
added to the regional per-group sum and to the regional total; values
whose int() coercion raises are logged and skipped.  A count value is
modelled as some n when int() coerces it to n, and none when it raises. -/

structure CertReport where
  certificate : String
  violations : List (String × Option Int)
deriving Repr

/-- cert_to_region built by the double loop over regions and their
tc_lists. -/
def cert_to_region (regions : List (String × List String)) :
    List (String × String) :=
  regions.foldl
    (fun acc r => r.2.foldl (fun acc2 tc => dictSet acc2 tc r.1) acc) []

def regionOf (ctr : List (String × String)) (cert : String) : String :=
  (alookup cert ctr).getD "Undefined"

structure RegionAgg where
  certificates : List String
  violations : List (String × Int)
  total : Int
deriving Repr

def emptyAgg : RegionAgg := { certificates := [], violations := [], total := 0 }

/-- violations[group] += v and total += v (defaultdict int semantics). -/
def addCount (agg : RegionAgg) (g : String) (v : Int) : RegionAgg :=
  { agg with
    violations := dictSet agg.violations g ((alookup g agg.violations).getD 0 + v)
    total := agg.total + v }

/-- One (product_group, count) item: numeric counts accumulate, the rest
log a warning and are skipped. -/
def processEntry (agg : RegionAgg) (e : String × Option Int) : RegionAgg :=
  match e.2 with
  | some v => addCount agg e.1 v
  | none => agg

/-- Consolidate one certificate report into the per-region dictionary. -/
def processReport (ctr : List (String × String))
    (regs : List (String × RegionAgg)) (rep : CertReport) :
    List (String × RegionAgg) :=
  let r := regionOf ctr rep.certificate
  let agg := (alookup r regs).getD emptyAgg
  let agg := { agg with certificates := agg.certificates ++ [rep.certificate] }
  let agg := rep.violations.foldl processEntry agg
  dictSet regs r agg

def generate_consolidated_report_by_region (reports : List CertReport)
    (regions : List (String × List String)) : List (String × RegionAgg) :=
  reports.foldl (processReport (cert_to_region regions)) []

/-- The aggregate recorded for a region (emptyAgg when the region never
received a report). -/
def aggFor (res : List (String × RegionAgg)) (r : String) : RegionAgg :=
  (alookup r res).getD emptyAgg

/-- Sum of the numeric counts of one certificate report. -/
def numericSum (vs : List (String × Option Int)) : Int :=
  (vs.filterMap Prod.snd).sum

/-- Sum of the numeric counts of all reports whose certificate maps to the
given region. -/
def regionCertsSum (ctr : List (String × String)) (reports : List CertReport)
    (r : String) : Int :=
  ((reports.filter (fun rep => regionOf ctr rep.certificate = r)).map
    (fun rep => numericSum rep.violations)).sum

/-- Sum of the per-group subtotals of an aggregate. -/
def sumValues (m : List (String × Int)) : Int :=
  (m.map Prod.snd).sum

/-! ## Dictionary lemmas -/

theorem alookup_map_set {α β : Type} [DecidableEq α] (d : List (α × β)) (k : α) (v : β) :
    alookup k (d.map (fun e => if e.1 = k then (k, v) else e))
      = if d.any (fun e => e.1 = k) then some v else none := by
  induction d with
  | nil => rfl
  | cons e t ih =>
    by_cases h : e.1 = k
    · simp [alookup, h]
    · have hd : (decide (e.1 = k)) = false := decide_eq_false h
      simp only [List.any_cons, hd, Bool.false_or]
      simp [alookup, h, ih]

theorem alookup_map_set_ne {α β : Type} [DecidableEq α] (d : List (α × β))
    (k k' : α) (v : β) (h : k' ≠ k) :
    alookup k' (d.map (fun e => if e.1 = k then (k, v) else e)) = alookup k' d := by
  induction d with
  | nil => rfl
  | cons e t ih =>
    by_cases he : e.1 = k
    · simp [alookup, he, Ne.symm h, ih]
    · by_cases he' : e.1 = k' <;> simp [alookup, he, he', ih, h]

theorem alookup_append_single {α β : Type} [DecidableEq α] (d : List (α × β))
    (k k' : α) (v : β) :
    alookup k' (d ++ [(k, v)])
      = match alookup k' d with
        | some w => some w
        | none => if k = k' then some v else none := by
  induction d with
  | nil => simp [alookup]
  | cons e t ih =>
    by_cases he : e.1 = k' <;> simp [alookup, he, ih]

theorem alookup_dictSet_self {α β : Type} [DecidableEq α] (d : List (α × β))
    (k : α) (v : β) :
    alookup k (dictSet d k v) = some v := by
  unfold dictSet
  split
  · next h => rw [alookup_map_set]; simp_all
  · next h =>
    rw [alookup_append_single]
    have : alookup k d = none := by
      induction d with
      | nil => rfl
      | cons e t ih =>
        simp only [List.any_cons, Bool.or_eq_true, decide_eq_true_eq] at h
        push_neg at h
        simp [alookup, h.1, ih h.2]
    simp [this]

theorem alookup_dictSet_ne {α β : Type} [DecidableEq α] (d : List (α × β))
    (k k' : α) (v : β) (h : k' ≠ k) :
    alookup k' (dictSet d k v) = alookup k' d := by
  unfold dictSet
  split
  · exact alookup_map_set_ne d k k' v h
  · rw [alookup_append_single]
    cases halt : alookup k' d with
    | some w => rfl
    | none => simp [Ne.symm h]

theorem alookup_dictUpdate_frame {α β : Type} [DecidableEq α]
    (new : List (α × β)) (old : List (α × β)) (k : α)
    (h : k ∉ dictKeys new) :
    alookup k (dictUpdate old new) = alookup k old := by
  induction new generalizing old with
  | nil => rfl
  | cons e t ih =>
    simp only [dictKeys, List.map_cons, List.mem_cons] at h
    push_neg at h
    show alookup k (dictUpdate (dictSet old e.1 e.2) t) = alookup k old
    rw [ih (dictSet old e.1 e.2) (by simpa [dictKeys] using h.2),
      alookup_dictSet_ne old e.1 k e.2 h.1]

theorem alookup_dictUpdate_new {α β : Type} [DecidableEq α]
    (new : List (α × β)) (old : List (α × β)) (k : α) (v : β)
    (hnd : (dictKeys new).Nodup) (hmem : (k, v) ∈ new) :
    alookup k (dictUpdate old new) = some v := by
  induction new generalizing old with
  | nil => simp at hmem
  | cons e t ih =>
    simp only [dictKeys, List.map_cons, List.nodup_cons] at hnd
    rcases List.mem_cons.mp hmem with heq | hmem'
    · subst heq
      show alookup k (dictUpdate (dictSet old k v) t) = some v
      rw [alookup_dictUpdate_frame t (dictSet old k v) k
          (by simpa [dictKeys] using hnd.1),
        alookup_dictSet_self]
    · exact ih (dictSet old e.1 e.2) (by simpa [dictKeys] using hnd.2) hmem'

theorem countElem_eq_zero_of_not_mem {α : Type} [DecidableEq α] (x : α)
    (l : List α) (h : x ∉ l) : countElem x l = 0 := by
  induction l with
  | nil => rfl
  | cons y t ih =>
    simp only [List.mem_cons] at h
    push_neg at h
    simp [countElem, Ne.symm h.1, ih h.2]

theorem countElem_le_one_of_nodup {α : Type} [DecidableEq α] (x : α)
    (l : List α) (h : l.Nodup) : countElem x l ≤ 1 := by
  induction l with
  | nil => exact Nat.zero_le 1
  | cons y t ih =>
    rw [List.nodup_cons] at h
    by_cases hy : y = x
    · subst hy
      simp [countElem, countElem_eq_zero_of_not_mem y t h.1]
    · simpa [countElem, hy] using ih h.2

/-! ## C10 and C7 theorems -/

/-- C10: for every input dictionary token_data, is_token_expired returns
True.  The freshness path looks up fromisoformat as an attribute of the
datetime module (token_utils.py imports the module, not the class), which
raises AttributeError and is caught by the handler that reports expiry, so
no token store is ever judged fresh by this function. -/
theorem is_token_expired_always_true (td : TokenData) :
    is_token_expired td = true := by
  unfold is_token_expired
  cases td.generated_at with
  | none => rfl
  | some s => rfl

/-- C7: saving newly acquired tokens preserves every existing entry whose
key is not among the acquired keys, overwrites or adds every acquired key
with its new token, and sets the single shared generated_at timestamp. -/
theorem save_tokens_merge (existing acquired : List (String × String))
    (now k : String) (hnd : (dictKeys acquired).Nodup) :
    (∀ v, (k, v) ∈ acquired →
      alookup k (save_tokens existing acquired now).tokens = some v)
    ∧ (k ∉ dictKeys acquired →
      alookup k (save_tokens existing acquired now).tokens = alookup k existing)
    ∧ (save_tokens existing acquired now).generated_at = now := by
  refine ⟨fun v hv => ?_, fun hk => ?_, rfl⟩
  · exact alookup_dictUpdate_new acquired existing k v hnd hv
  · exact alookup_dictUpdate_frame acquired existing k hk

/-- Witness for C7 at a concrete store: key b is overwritten, key c added,
key a untouched, timestamp replaced. -/
theorem save_tokens_merge_witness :
    alookup "b" (save_tokens [("a", "1"), ("b", "2")] [("b", "9"), ("c", "3")] "T").tokens
        = some "9"
    ∧ alookup "a" (save_tokens [("a", "1"), ("b", "2")] [("b", "9"), ("c", "3")] "T").tokens
        = alookup "a" [("a", "1"), ("b", "2")]
    ∧ (save_tokens [("a", "1"), ("b", "2")] [("b", "9"), ("c", "3")] "T").generated_at = "T" := by
  have h := save_tokens_merge [("a", "1"), ("b", "2")] [("b", "9"), ("c", "3")] "T"
  exact ⟨(h "b" (by decide)).1 "9" (by decide),
    (h "a" (by decide)).2.1 (by decide),
    (h "a" (by decide)).2.2⟩

/-! ## C1 and C2 theorems (download poller) -/

theorem pendingAfter_eq_remaining (tasks : List PendingTask)
    (outcome : PendingTask → PollOutcome) :
    pendingAfter tasks outcome = remainingTasksAfter tasks outcome := by
  simp only [pendingAfter, download_tasks_for_token]
  by_cases h : (remainingTasksAfter tasks outcome).isEmpty
  · simp [h, List.isEmpty_iff.mp h]
  · simp [h]

/-- C1: every (task_id, group_code) pair present at the start of a
download_tasks_for_token invocation ends in exactly one of three states:
downloaded and removed, removed by an explicit skip rule (403 forbidden or
204 empty body), or still present in the persisted pending list; the pair
is never duplicated in the final list and never disappears without a
remove or skip rule firing. -/
theorem download_tasks_conservation (tasks : List PendingTask)
    (outcome : PendingTask → PollOutcome) (t : PendingTask)
    (ht : t ∈ tasks) (hnd : tasks.Nodup) :
    (t ∈ pendingAfter tasks outcome ↔ taskRemoved (outcome t) = false)
    ∧ (taskRemoved (outcome t) = true →
        outcome t = PollOutcome.downloaded
        ∨ outcome t = PollOutcome.skipForbidden
        ∨ outcome t = PollOutcome.skipEmpty)
    ∧ countElem t (pendingAfter tasks outcome) ≤ 1 := by
  rw [pendingAfter_eq_remaining]
  refine ⟨?_, ?_, ?_⟩
  · unfold remainingTasksAfter
    rw [List.mem_filter]
    cases h : outcome t <;> simp [h, ht, taskRemoved, keepPending, monitor_and_download]
  · intro h
    cases h2 : outcome t <;>
      simp [h2, taskRemoved, keepPending, monitor_and_download] at h ⊢
  · have : (remainingTasksAfter tasks outcome).Nodup :=
      List.Nodup.filter _ hnd
    exact countElem_le_one_of_nodup _ _ this

/-- Witness for C1: two pending tasks, one downloaded and removed, one
kept after a failure. -/
theorem download_tasks_conservation_witness :
    (("a", 1) ∈ pendingAfter [("a", 1), ("b", 2)]
        (fun t => if t.1 = "a" then PollOutcome.downloaded else PollOutcome.failedStatus)
      ↔ taskRemoved ((fun (t : PendingTask) =>
          if t.1 = "a" then PollOutcome.downloaded else PollOutcome.failedStatus) ("a", 1)) = false)
    ∧ (taskRemoved ((fun (t : PendingTask) =>
          if t.1 = "a" then PollOutcome.downloaded else PollOutcome.failedStatus) ("a", 1)) = true →
        (fun (t : PendingTask) =>
          if t.1 = "a" then PollOutcome.downloaded else PollOutcome.failedStatus) ("a", 1)
            = PollOutcome.downloaded
        ∨ (fun (t : PendingTask) =>
          if t.1 = "a" then PollOutcome.downloaded else PollOutcome.failedStatus) ("a", 1)
            = PollOutcome.skipForbidden
        ∨ (fun (t : PendingTask) =>
          if t.1 = "a" then PollOutcome.downloaded else PollOutcome.failedStatus) ("a", 1)
            = PollOutcome.skipEmpty)
    ∧ countElem ("a", 1) (pendingAfter [("a", 1), ("b", 2)]
        (fun t => if t.1 = "a" then PollOutcome.downloaded else PollOutcome.failedStatus)) ≤ 1 :=
  download_tasks_conservation [("a", 1), ("b", 2)]
    (fun t => if t.1 = "a" then PollOutcome.downloaded else PollOutcome.failedStatus)
    ("a", 1) (by decide) (by decide)

/-- C2 counterexample: the claim says a task whose remote status is FAILED
is removed from the persisted pending list.  In the code
monitor_and_download returns False on FAILED and the caller then appends
the task to remaining_tasks, so the pair ("t1", 2) is still in the
rewritten pending file. -/
theorem failed_task_kept_counterexample :
    monitor_and_download PollOutcome.failedStatus = Except.ok false
    ∧ download_tasks_for_token [("t1", 2)] (fun _ => PollOutcome.failedStatus)
        = some [("t1", 2)] :=
  ⟨rfl, rfl⟩

/-- C2 amended: a task whose remote status query returns FAILED has its
error logged and monitor_and_download returns False; the task is kept in
the persisted pending list and will be retried on the next invocation. -/
theorem failed_task_retried (tasks : List PendingTask)
    (outcome : PendingTask → PollOutcome) (t : PendingTask)
    (ht : t ∈ tasks) (hf : outcome t = PollOutcome.failedStatus) :
    monitor_and_download (outcome t) = Except.ok false
    ∧ t ∈ pendingAfter tasks outcome := by
  rw [pendingAfter_eq_remaining, hf]
  refine ⟨rfl, ?_⟩
  unfold remainingTasksAfter
  rw [List.mem_filter]
  exact ⟨ht, by simp [hf, keepPending, monitor_and_download]⟩

/-- Witness for amended C2 at a concrete pending file. -/
theorem failed_task_retried_witness :
    monitor_and_download ((fun (_ : PendingTask) => PollOutcome.failedStatus) ("t9", 8))
        = Except.ok false
    ∧ ("t9", 8) ∈ pendingAfter [("t9", 8)] (fun _ => PollOutcome.failedStatus) :=
  failed_task_retried [("t9", 8)] (fun _ => PollOutcome.failedStatus) ("t9", 8)
    (by decide) rfl

/-! ## C5 theorems (token acquisition for multi-pair certificates) -/

/-- C5 counterexample: for a certificate with two persisted ТС-ИНН pairs
the claim requires a fresh challenge per pair.  The code draws one
challenge before the pair loop: starting from challenge supply 0, both
exchanges carry uuid 0, the uuid list is not duplicate-free, and only one
challenge was consumed. -/
theorem shared_challenge_counterexample :
    ((process_cert_pairs "ACME" [⟨"tc1", "11"⟩, ⟨"tc2", "22"⟩] 0).1.map ExchangeRec.uuid)
        = [0, 0]
    ∧ ¬ ((process_cert_pairs "ACME" [⟨"tc1", "11"⟩, ⟨"tc2", "22"⟩] 0).1.map
          ExchangeRec.uuid).Nodup
    ∧ (process_cert_pairs "ACME" [⟨"tc1", "11"⟩, ⟨"tc2", "22"⟩] 0).2 = 1 := by
  refine ⟨rfl, by decide, rfl⟩

/-- C5 amended: token acquisition draws one challenge per certificate and
reuses it for the exchange of every persisted pair (consuming exactly one
element of the challenge supply), while each exchange is still keyed by
its own composite key "name - tc". -/
theorem cert_pairs_single_challenge (name : String) (pairs : List TCPair)
    (supply : Nat) :
    (process_cert_pairs name pairs supply).2 = supply + 1
    ∧ ((process_cert_pairs name pairs supply).1.map ExchangeRec.uuid)
        = pairs.map (fun _ => supply)
    ∧ ((process_cert_pairs name pairs supply).1.map ExchangeRec.key)
        = pairs.map (fun p => name ++ " - " ++ p.tc) := by
  refine ⟨rfl, ?_, ?_⟩
  · show (pairs.map (pairExchange name supply)).map ExchangeRec.uuid = _
    induction pairs with
    | nil => rfl
    | cons p t ih => simp_all [pairExchange]
  · show (pairs.map (pairExchange name supply)).map ExchangeRec.key = _
    induction pairs with
    | nil => rfl
    | cons p t ih => simp_all [pairExchange]

/-! ## C3 theorems (scheduler trigger window) -/

/-- C3 counterexample: the claim says a stage fires only on the first
check falling in the 2-minute window on a given day.  The code keeps no
record of having fired: with the daily report configured at 04:00 and the
default 60-second check interval, the consecutive checks at 04:00:30 and
04:01:30 both satisfy is_time_to_run, so the daily-report stage fires
twice on the same day. -/
theorem scheduler_double_fire_counterexample :
    is_time_to_run ⟨4, 0, 30, 0⟩ 4 0 = true
    ∧ is_time_to_run ⟨4, 1, 30, 0⟩ 4 0 = true
    ∧ firesOnDay ⟨(4, 0), (3, 0), (20, 4)⟩ [⟨4, 0, 30, 0⟩, ⟨4, 1, 30, 0⟩]
        Stage.dailyReport = 2 := by
  refine ⟨by decide, by decide, by decide⟩

theorem is_time_to_run_iff (now : WallClock) (h m : Nat)
    (hmin : now.minute < 60) (hsec : now.second < 60)
    (hmic : now.micro < 1000000) (hm : m < 60) :
    is_time_to_run now h m = true ↔
      now.hour = h ∧ taskMicros h m ≤ microsOfDay now
        ∧ microsOfDay now ≤ taskMicros h m + 120 * 1000000 := by
  unfold is_time_to_run
  split
  · next hg =>
    simp only [Bool.false_eq_true, false_iff]
    rintro ⟨hh, h1, h2⟩
    subst hh
    unfold microsOfDay taskMicros at h1 h2
    rcases hg with hg | ⟨-, hg⟩
    · omega
    · omega
  · next hg =>
    push_neg at hg
    rw [decide_eq_true_iff]
    unfold microsOfDay taskMicros
    constructor
    · rintro ⟨h1, h2⟩
      have hle : now.hour ≤ h := hg.1
      refine ⟨?_, by omega, by omega⟩
      omega
    · rintro ⟨hh, h1, h2⟩
      subst hh
      omega

theorem countElem_append {α : Type} [DecidableEq α] (x : α) (a b : List α) :
    countElem x (a ++ b) = countElem x a + countElem x b := by
  induction a with
  | nil => simp [countElem]
  | cons y t ih => simp [countElem, ih]; omega

theorem countElem_ifsingle_ne {α : Type} [DecidableEq α] (c : Prop)
    [Decidable c] (s x : α) (h : s ≠ x) :
    countElem x (if c then [s] else []) = 0 := by
  split <;> simp [countElem, h]

theorem countElem_ifsingle_self {α : Type} [DecidableEq α] (c : Prop)
    [Decidable c] (x : α) :
    countElem x (if c then [x] else []) = if c then 1 else 0 := by
  split <;> simp [countElem]

/-- C3 amended: a stage fires at a check exactly when the wall-clock time
of that check lies in the 2-minute window at or after the configured time
and in the same hour as the configured time; the scheduler records no
per-day fired flag, so every check in the window (two or three of them at
the default 60-second interval) fires the stage again. -/
theorem stage_fires_every_window_check (cfg : SchedulerConfig)
    (now : WallClock)
    (hmin : now.minute < 60) (hsec : now.second < 60)
    (hmic : now.micro < 1000000)
    (hd : cfg.dailyReportTime.2 < 60) (ht : cfg.tokenRefreshTime.2 < 60)
    (he : cfg.emailTime.2 < 60) :
    (countElem Stage.dailyReport (check_and_run_tasks cfg now)
      = if now.hour = cfg.dailyReportTime.1
          ∧ taskMicros cfg.dailyReportTime.1 cfg.dailyReportTime.2 ≤ microsOfDay now
          ∧ microsOfDay now ≤ taskMicros cfg.dailyReportTime.1 cfg.dailyReportTime.2
              + 120 * 1000000 then 1 else 0)
    ∧ (countElem Stage.tokenRefresh (check_and_run_tasks cfg now)
      = if now.hour = cfg.tokenRefreshTime.1
          ∧ taskMicros cfg.tokenRefreshTime.1 cfg.tokenRefreshTime.2 ≤ microsOfDay now
          ∧ microsOfDay now ≤ taskMicros cfg.tokenRefreshTime.1 cfg.tokenRefreshTime.2
              + 120 * 1000000 then 1 else 0)
    ∧ (countElem Stage.emailReports (check_and_run_tasks cfg now)
      = if now.hour = cfg.emailTime.1
          ∧ taskMicros cfg.emailTime.1 cfg.emailTime.2 ≤ microsOfDay now
          ∧ microsOfDay now ≤ taskMicros cfg.emailTime.1 cfg.emailTime.2
              + 120 * 1000000 then 1 else 0) := by
  have key : ∀ hh mm, mm < 60 → (is_time_to_run now hh mm = true ↔
      (now.hour = hh ∧ taskMicros hh mm ≤ microsOfDay now
        ∧ microsOfDay now ≤ taskMicros hh mm + 120 * 1000000)) :=
    fun hh mm hmm => is_time_to_run_iff now hh mm hmin hsec hmic hmm
  refine ⟨?_, ?_, ?_⟩
  · simp only [check_and_run_tasks, countElem_append,
      countElem_ifsingle_self,
      countElem_ifsingle_ne _ Stage.tokenRefresh Stage.dailyReport (by simp),
      countElem_ifsingle_ne _ Stage.emailReports Stage.dailyReport (by simp),
      Nat.add_zero]
    by_cases h1 : is_time_to_run now cfg.dailyReportTime.1 cfg.dailyReportTime.2 = true
    · rw [if_pos h1, if_pos ((key _ _ hd).mp h1)]
    · rw [if_neg (fun hc => h1 ((key _ _ hd).mpr hc)),
        if_neg (by simpa using h1)]
  · simp only [check_and_run_tasks, countElem_append,
      countElem_ifsingle_self,
      countElem_ifsingle_ne _ Stage.dailyReport Stage.tokenRefresh (by simp),
      countElem_ifsingle_ne _ Stage.emailReports Stage.tokenRefresh (by simp),
      Nat.zero_add, Nat.add_zero]
    by_cases h2 : is_time_to_run now cfg.tokenRefreshTime.1 cfg.tokenRefreshTime.2 = true
    · rw [if_pos h2, if_pos ((key _ _ ht).mp h2)]
    · rw [if_neg (fun hc => h2 ((key _ _ ht).mpr hc)),
        if_neg (by simpa using h2)]
  · simp only [check_and_run_tasks, countElem_append,
      countElem_ifsingle_self,
      countElem_ifsingle_ne _ Stage.dailyReport Stage.emailReports (by simp),
      countElem_ifsingle_ne _ Stage.tokenRefresh Stage.emailReports (by simp),
      Nat.zero_add]
    by_cases h3 : is_time_to_run now cfg.emailTime.1 cfg.emailTime.2 = true
    · rw [if_pos h3, if_pos ((key _ _ he).mp h3)]
    · rw [if_neg (fun hc => h3 ((key _ _ he).mpr hc)),
        if_neg (by simpa using h3)]

/-- Witness for amended C3 at a concrete configuration and clock. -/
theorem stage_fires_every_window_check_witness :
    (countElem Stage.dailyReport
        (check_and_run_tasks ⟨(4, 0), (3, 0), (20, 4)⟩ ⟨4, 1, 30, 0⟩)
      = if (4 : Nat) = 4
          ∧ taskMicros 4 0 ≤ microsOfDay ⟨4, 1, 30, 0⟩
          ∧ microsOfDay ⟨4, 1, 30, 0⟩ ≤ taskMicros 4 0 + 120 * 1000000
        then 1 else 0)
    ∧ (countElem Stage.tokenRefresh
        (check_and_run_tasks ⟨(4, 0), (3, 0), (20, 4)⟩ ⟨4, 1, 30, 0⟩)
      = if (4 : Nat) = 3
          ∧ taskMicros 3 0 ≤ microsOfDay ⟨4, 1, 30, 0⟩
          ∧ microsOfDay ⟨4, 1, 30, 0⟩ ≤ taskMicros 3 0 + 120 * 1000000
        then 1 else 0)
    ∧ (countElem Stage.emailReports
        (check_and_run_tasks ⟨(4, 0), (3, 0), (20, 4)⟩ ⟨4, 1, 30, 0⟩)
      = if (4 : Nat) = 20
          ∧ taskMicros 20 4 ≤ microsOfDay ⟨4, 1, 30, 0⟩
          ∧ microsOfDay ⟨4, 1, 30, 0⟩ ≤ taskMicros 20 4 + 120 * 1000000
        then 1 else 0) :=
  stage_fires_every_window_check ⟨(4, 0), (3, 0), (20, 4)⟩ ⟨4, 1, 30, 0⟩
    (by decide) (by decide) (by decide) (by decide) (by decide) (by decide)

/-! ## C6 theorems (region exclusivity) -/

theorem countOcc_append_single (x y : String) (l : List String) :
    countOcc x (l ++ [y]) = countOcc x l + (if y = x then 1 else 0) := by
  induction l with
  | nil => simp [countOcc]
  | cons z t ih => simp [countOcc, ih]; omega

theorem countOcc_removeFirst (x y : String) (l : List String) :
    countOcc x (removeFirst y l)
      = if y = x then countOcc x l - 1 else countOcc x l := by
  induction l with
  | nil => simp [removeFirst, countOcc]
  | cons z t ih =>
    unfold removeFirst
    by_cases hz : z = y
    · rw [if_pos hz]
      subst hz
      by_cases hx : z = x
      · subst hx
        simp [countOcc]
      · have hyx : ¬ z = x := hx
        simp [countOcc, hyx]
    · rw [if_neg hz]
      by_cases hyx : y = x
      · have hzx : ¬ z = x := fun hc => hz (hc.trans hyx.symm)
        simp only [countOcc, ih, if_pos hyx, if_neg hzx]
        omega
      · simp only [countOcc, ih, if_neg hyx]

theorem countOcc_eq_zero_of_not_mem (x : String) (l : List String)
    (h : x ∉ l) : countOcc x l = 0 := by
  induction l with
  | nil => rfl
  | cons y t ih =>
    simp only [List.mem_cons] at h
    push_neg at h
    simp [countOcc, Ne.symm h.1, ih h.2]

theorem alookup_split {α β : Type} [DecidableEq α] (k : α) (d : List (α × β))
    (e : β) (h : alookup k d = some e) :
    ∃ l1 l2, d = l1 ++ (k, e) :: l2 ∧ ∀ kv ∈ l1, kv.1 ≠ k := by
  induction d with
  | nil => simp [alookup] at h
  | cons f t ih =>
    by_cases hf : f.1 = k
    · refine ⟨[], t, ?_, by simp⟩
      simp only [alookup, hf, if_true] at h
      have : f = (k, e) := by
        cases f
        simp_all
      simp [this]
    · simp only [alookup, hf, if_false] at h
      obtain ⟨l1, l2, hd, hl1⟩ := ih h
      exact ⟨f :: l1, l2, by simp [hd], by
        intro kv hkv
        rcases List.mem_cons.mp hkv with rfl | hm
        · exact hf
        · exact hl1 kv hm⟩

theorem sum_map_congr {α : Type} (l : List α) (f g : α → Nat)
    (h : ∀ a ∈ l, f a = g a) : (l.map f).sum = (l.map g).sum := by
  induction l with
  | nil => rfl
  | cons a t ih =>
    simp only [List.map_cons, List.sum_cons, h a (List.mem_cons_self a t)]
    rw [ih (fun b hb => h b (List.mem_cons_of_mem a hb))]

theorem sum_map_sub_one_eq_zero {α : Type} (l : List α) (f : α → Nat)
    (h : (l.map f).sum ≤ 1) : (l.map (fun a => f a - 1)).sum = 0 := by
  induction l with
  | nil => rfl
  | cons x t ih =>
    simp only [List.map_cons, List.sum_cons] at h ⊢
    have h2 := ih (by omega)
    omega

theorem map_eq_of_pointwise {α β : Type} (l : List α) (f g : α → β)
    (h : ∀ a ∈ l, f a = g a) : l.map f = l.map g := by
  induction l with
  | nil => rfl
  | cons a t ih =>
    simp only [List.map_cons, h a (List.mem_cons_self a t)]
    rw [ih (fun b hb => h b (List.mem_cons_of_mem a hb))]

theorem tcUpdateEntry_fst (tc rid : String) (kv : String × RegionEntry) :
    (tcUpdateEntry tc rid kv).1 = kv.1 := by
  unfold tcUpdateEntry
  by_cases hr : kv.1 = rid <;> simp [hr]

theorem add_tc_keys (tc rid : String) (rd : Regions) :
    dictKeys (add_tc_to_region tc rid rd).1 = dictKeys rd := by
  unfold add_tc_to_region
  cases hl : alookup rid rd with
  | none => rfl
  | some entry =>
    by_cases hmem : tc ∈ entry.tc_list
    · simp [hmem]
    · simp only [hmem, if_false, dictKeys, List.map_map]
      apply map_eq_of_pointwise
      intro kv _
      simp [Function.comp, tcUpdateEntry_fst]

/-- Effect of the update map on the occurrence sum over a block of regions
that are all different from the chosen one. -/
theorem sum_update_ne (o tc rid : String) (l : List (String × RegionEntry))
    (hno : ∀ kv ∈ l, kv.1 ≠ rid) :
    ((l.map (tcUpdateEntry tc rid)).map
        (fun kv => countOcc o kv.2.tc_list)).sum
      = if tc = o then (l.map (fun kv => countOcc o kv.2.tc_list - 1)).sum
        else (l.map (fun kv => countOcc o kv.2.tc_list)).sum := by
  induction l with
  | nil => by_cases ho : tc = o <;> simp [ho]
  | cons kv t ih =>
    have h1 : ¬ kv.1 = rid := hno kv (List.mem_cons_self kv t)
    have iht := ih (fun b hb => hno b (List.mem_cons_of_mem kv hb))
    simp only [List.map_cons, List.sum_cons]
    rw [iht]
    have hhd : countOcc o (tcUpdateEntry tc rid kv).2.tc_list
        = countOcc o (removeFirst tc kv.2.tc_list) := by
      unfold tcUpdateEntry
      rw [if_neg h1]
    rw [hhd, countOcc_removeFirst]
    by_cases ho : tc = o
    · rw [if_pos ho, if_pos ho, if_pos ho]
    · rw [if_neg ho, if_neg ho, if_neg ho]

theorem tcUpdateEntry_self (tc rid : String) (e : RegionEntry) :
    (tcUpdateEntry tc rid (rid, e)).2.tc_list = e.tc_list ++ [tc] := by
  simp [tcUpdateEntry]

theorem add_tc_occurrences (tc rid : String) (rd : Regions)
    (hk : (dictKeys rd).Nodup) (hinv : ∀ o, tcOccurrences o rd ≤ 1) :
    ∀ o, tcOccurrences o (add_tc_to_region tc rid rd).1 ≤ 1 := by
  intro o
  unfold add_tc_to_region
  cases hl : alookup rid rd with
  | none => exact hinv o
  | some entry =>
    by_cases hmem : tc ∈ entry.tc_list
    · simp only [hmem, if_true]
      exact hinv o
    · simp only [hmem, if_false]
      obtain ⟨l1, l2, hd, hl1⟩ := alookup_split rid rd entry hl
      subst hd
      have hrid2 : ∀ kv ∈ l2, kv.1 ≠ rid := by
        intro kv hkv
        simp only [dictKeys, List.map_append, List.map_cons] at hk
        have := (List.nodup_append.mp hk).2.1
        rw [List.nodup_cons] at this
        intro hcon
        exact this.1 (hcon ▸ List.mem_map_of_mem Prod.fst hkv)
      have hinvo := hinv o
      simp only [tcOccurrences, List.map_append, List.map_cons,
        List.sum_append, List.sum_cons] at hinvo ⊢
      rw [sum_update_ne o tc rid l1 hl1, sum_update_ne o tc rid l2 hrid2,
        tcUpdateEntry_self, countOcc_append_single]
      by_cases ho : tc = o
      · subst ho
        rw [if_pos rfl, if_pos rfl, if_pos rfl,
          countOcc_eq_zero_of_not_mem tc _ hmem]
        have hz1 : (l1.map (fun kv => countOcc tc kv.2.tc_list - 1)).sum = 0 :=
          sum_map_sub_one_eq_zero l1 _ (by omega)
        have hz2 : (l2.map (fun kv => countOcc tc kv.2.tc_list - 1)).sum = 0 :=
          sum_map_sub_one_eq_zero l2 _ (by omega)
        omega
      · rw [if_neg ho, if_neg ho, if_neg ho]
        omega

/-- C6: starting from a state whose region keys are unique (a JSON
object) and in which every outlet occurs at most once across all region
tc_lists, any sequence of add_tc_to_region calls leaves every outlet in
the tc_list of at most one region. -/
theorem region_exclusivity (calls : List (String × String)) (rd : Regions)
    (hk : (dictKeys rd).Nodup) (hinv : ∀ o, tcOccurrences o rd ≤ 1)
    (o : String) :
    tcOccurrences o (applyTcCalls calls rd) ≤ 1 := by
  induction calls generalizing rd with
  | nil => exact hinv o
  | cons c t ih =>
    show tcOccurrences o (applyTcCalls t (add_tc_to_region c.1 c.2 rd).1) ≤ 1
    exact ih (add_tc_to_region c.1 c.2 rd).1
      ((add_tc_keys c.1 c.2 rd) ▸ hk)
      (add_tc_occurrences c.1 c.2 rd hk hinv)

/-- Witness for C6: moving tc1 from region R1 to region R2. -/
theorem region_exclusivity_witness :
    tcOccurrences "tc1"
      (applyTcCalls [("tc1", "R2")]
        [("R1", ⟨"r1", [], ["tc1", "x"]⟩), ("R2", ⟨"r2", [], []⟩)]) ≤ 1 :=
  region_exclusivity [("tc1", "R2")]
    [("R1", ⟨"r1", [], ["tc1", "x"]⟩), ("R2", ⟨"r2", [], []⟩)]
    (by decide)
    (by
      intro o
      simp only [tcOccurrences, List.map_cons, List.map_nil, List.sum_cons,
        List.sum_nil, countOcc]
      by_cases h1 : "tc1" = o <;> by_cases h2 : "x" = o
      · exact absurd (h1.trans h2.symm) (by decide)
      all_goals simp [h1, h2])
    "tc1"

/-! ## C4 theorems (regional aggregation) -/

theorem dictSet_cons_ne {α β : Type} [DecidableEq α] (e : α × β)
    (t : List (α × β)) (k : α) (v : β) (h : e.1 ≠ k) :
    dictSet (e :: t) k v = e :: dictSet t k v := by
  unfold dictSet
  have hd : (decide (e.1 = k)) = false := decide_eq_false h
  simp only [List.any_cons, hd, Bool.false_or]
  split
  · simp [if_neg h]
  · rfl

theorem map_set_id {α β : Type} [DecidableEq α] (t : List (α × β)) (k : α)
    (v : β) (h : ∀ x ∈ t, x.1 ≠ k) :
    t.map (fun x => if x.1 = k then (k, v) else x) = t := by
  have := map_eq_of_pointwise t (fun x => if x.1 = k then (k, v) else x) id
    (fun a ha => by simp [h a ha])
  simpa using this

theorem sumValues_dictSet (m : List (String × Int)) (g : String) (w : Int)
    (hnd : (dictKeys m).Nodup) :
    sumValues (dictSet m g w) = sumValues m - (alookup g m).getD 0 + w := by
  induction m with
  | nil => simp [dictSet, sumValues, alookup]
  | cons e t ih =>
    simp only [dictKeys, List.map_cons, List.nodup_cons] at hnd
    by_cases hg : e.1 = g
    · have ht : ∀ x ∈ t, x.1 ≠ g := by
        intro x hx hc
        exact hnd.1 (hg ▸ hc ▸ List.mem_map_of_mem Prod.fst hx)
      unfold dictSet
      have : ((e :: t).any (fun x => x.1 = g)) = true := by
        simp [List.any_cons, hg]
      rw [if_pos this]
      simp only [List.map_cons, if_pos hg, map_set_id t g w ht]
      simp only [sumValues, List.map_cons, List.sum_cons, alookup,
        if_pos hg, Option.getD_some]
      omega
    · rw [dictSet_cons_ne e t g w hg]
      simp only [sumValues, List.map_cons, List.sum_cons, alookup,
        if_neg hg]
      have := ih (by simpa [dictKeys] using hnd.2)
      simp only [sumValues] at this
      rw [this]
      omega

theorem dictKeys_dictSet_nodup {α β : Type} [DecidableEq α]
    (m : List (α × β)) (k : α) (v : β) (hnd : (dictKeys m).Nodup) :
    (dictKeys (dictSet m k v)).Nodup := by
  unfold dictSet
  split
  · next h =>
    have : dictKeys (m.map (fun e => if e.1 = k then (k, v) else e))
        = dictKeys m := by
      simp only [dictKeys, List.map_map]
      apply map_eq_of_pointwise
      intro a _
      by_cases ha : a.1 = k <;> simp [ha, Function.comp]
    rw [this]
    exact hnd
  · next h =>
    have hk : k ∉ dictKeys m := by
      intro hc
      apply h
      rw [List.any_eq_true]
      obtain ⟨e, he, hfst⟩ := List.mem_map.mp hc
      exact ⟨e, he, by simp [hfst]⟩
    simp only [dictKeys, List.map_append, List.map_cons, List.map_nil]
    rw [List.nodup_append]
    exact ⟨hnd, List.nodup_singleton k, by
      intro a ha hb
      simp only [List.mem_singleton] at hb
      exact hk (hb ▸ ha)⟩

theorem fold_entries_total (vs : List (String × Option Int))
    (agg : RegionAgg) :
    (vs.foldl processEntry agg).total = agg.total + numericSum vs := by
  induction vs generalizing agg with
  | nil => simp [numericSum]
  | cons e t ih =>
    cases he : e.2 with
    | none =>
      simp only [List.foldl_cons, processEntry, he]
      rw [ih]
      simp [numericSum, List.filterMap_cons, he]
    | some v =>
      simp only [List.foldl_cons, processEntry, he]
      rw [ih]
      simp only [addCount, numericSum, List.filterMap_cons, he,
        List.sum_cons]
      omega

theorem fold_entries_wf (vs : List (String × Option Int)) (agg : RegionAgg)
    (h1 : agg.total = sumValues agg.violations)
    (h2 : (dictKeys agg.violations).Nodup) :
    (vs.foldl processEntry agg).total
        = sumValues (vs.foldl processEntry agg).violations
    ∧ (dictKeys (vs.foldl processEntry agg).violations).Nodup := by
  induction vs generalizing agg with
  | nil => exact ⟨h1, h2⟩
  | cons e t ih =>
    cases he : e.2 with
    | none =>
      simp only [List.foldl_cons, processEntry, he]
      exact ih agg h1 h2
    | some v =>
      simp only [List.foldl_cons, processEntry, he]
      apply ih
      · show (addCount agg e.1 v).total = sumValues (addCount agg e.1 v).violations
        unfold addCount
        simp only
        rw [sumValues_dictSet _ _ _ h2]
        omega
      · exact dictKeys_dictSet_nodup _ _ _ h2

theorem regionCertsSum_cons (ctr : List (String × String)) (rep : CertReport)
    (t : List CertReport) (r : String) :
    regionCertsSum ctr (rep :: t) r
      = (if regionOf ctr rep.certificate = r then numericSum rep.violations
          else 0) + regionCertsSum ctr t r := by
  unfold regionCertsSum
  by_cases hr : regionOf ctr rep.certificate = r <;>
    simp [List.filter_cons, hr]

theorem aggFor_processReport (ctr : List (String × String))
    (regs : List (String × RegionAgg)) (rep : CertReport) (r : String) :
    (aggFor (processReport ctr regs rep) r).total
      = (aggFor regs r).total
        + (if regionOf ctr rep.certificate = r then numericSum rep.violations
            else 0) := by
  unfold processReport aggFor
  by_cases hr : regionOf ctr rep.certificate = r
  · rw [if_pos hr, ← hr, alookup_dictSet_self]
    simp only [Option.getD_some]
    rw [fold_entries_total]
  · have hlook := alookup_dictSet_ne regs (regionOf ctr rep.certificate) r
      ((rep.violations.foldl processEntry
        { (alookup (regionOf ctr rep.certificate) regs).getD emptyAgg with
          certificates := ((alookup (regionOf ctr rep.certificate) regs).getD
            emptyAgg).certificates ++ [rep.certificate] }))
      (fun hc => hr hc.symm)
    simp only [if_neg hr, hlook, Int.add_zero]

theorem fold_reports_total (ctr : List (String × String))
    (reports : List CertReport) (regs : List (String × RegionAgg))
    (r : String) :
    (aggFor (reports.foldl (processReport ctr) regs) r).total
      = (aggFor regs r).total + regionCertsSum ctr reports r := by
  induction reports generalizing regs with
  | nil => simp [regionCertsSum]
  | cons rep t ih =>
    simp only [List.foldl_cons]
    rw [ih, aggFor_processReport, regionCertsSum_cons]
    omega

theorem fold_reports_wf (ctr : List (String × String))
    (reports : List CertReport) (regs : List (String × RegionAgg))
    (h : ∀ r, (aggFor regs r).total = sumValues (aggFor regs r).violations
        ∧ (dictKeys (aggFor regs r).violations).Nodup) :
    ∀ r, (aggFor (reports.foldl (processReport ctr) regs) r).total
        = sumValues (aggFor (reports.foldl (processReport ctr) regs) r).violations
      ∧ (dictKeys (aggFor (reports.foldl (processReport ctr) regs) r).violations).Nodup := by
  induction reports generalizing regs with
  | nil => exact h
  | cons rep t ih =>
    simp only [List.foldl_cons]
    apply ih
    intro r
    unfold processReport aggFor
    by_cases hr : regionOf ctr rep.certificate = r
    · rw [← hr, alookup_dictSet_self]
      simp only [Option.getD_some]
      have hbase := h (regionOf ctr rep.certificate)
      unfold aggFor at hbase
      exact fold_entries_wf _ _ (by simpa using hbase.1) (by simpa using hbase.2)
    · rw [alookup_dictSet_ne _ _ _ _ (fun hc => hr hc.symm)]
      exact h r

/-- C4: for every region, the aggregate total equals the sum of all
counts across all certificate reports mapped to that region, and equals
the sum of the per-group regional subtotals. -/
theorem aggregation_totals (reports : List CertReport)
    (regions : List (String × List String)) (r : String)
    (hnum : ∀ rep ∈ reports, ∀ e ∈ rep.violations, e.2.isSome) :
    (aggFor (generate_consolidated_report_by_region reports regions) r).total
      = regionCertsSum (cert_to_region regions) reports r
    ∧ (aggFor (generate_consolidated_report_by_region reports regions) r).total
      = sumValues
          (aggFor (generate_consolidated_report_by_region reports regions) r).violations := by
  constructor
  · unfold generate_consolidated_report_by_region
    rw [fold_reports_total]
    simp [aggFor, alookup, emptyAgg]
  · unfold generate_consolidated_report_by_region
    exact (fold_reports_wf (cert_to_region regions) reports []
      (fun s => by simp [aggFor, alookup, emptyAgg, sumValues, dictKeys]) r).1

/-- Witness for C4: the scenario of the specification, certificate ACME
with 5 + 3 violations mapped to region R1, totals 8 both ways. -/
theorem aggregation_totals_witness :
    (aggFor (generate_consolidated_report_by_region
        [⟨"ACME", [("Обувные товары", some 5), ("Молочная продукция", some 3)]⟩]
        [("R1", ["ACME"])]) "R1").total
      = regionCertsSum (cert_to_region [("R1", ["ACME"])])
        [⟨"ACME", [("Обувные товары", some 5), ("Молочная продукция", some 3)]⟩]
        "R1"
    ∧ (aggFor (generate_consolidated_report_by_region
        [⟨"ACME", [("Обувные товары", some 5), ("Молочная продукция", some 3)]⟩]
        [("R1", ["ACME"])]) "R1").total
      = sumValues (aggFor (generate_consolidated_report_by_region
        [⟨"ACME", [("Обувные товары", some 5), ("Молочная продукция", some 3)]⟩]
        [("R1", ["ACME"])]) "R1").violations :=
  aggregation_totals
    [⟨"ACME", [("Обувные товары", some 5), ("Молочная продукция", some 3)]⟩]
    [("R1", ["ACME"])] "R1" (by decide)

/-! ## C8 theorems (undecodable CSV files) -/

theorem firstDecoded_all_none (atts : List (Option (List Nat)))
    (h : ∀ a ∈ atts, a = none) : firstDecoded atts = none := by
  induction atts with
  | nil => rfl
  | cons a t ih =>
    have ha := h a (List.mem_cons_self a t)
    subst ha
    exact ih (fun b hb => h b (List.mem_cons_of_mem none hb))

/-- C8 counterexample: the claim says a CSV file whose decode attempts all
fail contributes no entry to the violations map.  In the code
read_csv_with_encoding returns 0 after exhausting the encodings and
process_reports_for_token records that 0 under the product-group name, so
the map does get an entry for the file. -/
theorem undecodable_entry_counterexample :
    read_csv_with_encoding [none, none, none, none, none] = 0
    ∧ process_reports_for_token
        [{ name := "violations_group1__20250303_235139.csv",
           attempts := [none, none, none, none, none] }]
        = [("Предметы одежды", 0)] :=
  ⟨rfl, rfl⟩

/-- C8 amended: a CSV file whose decode attempts all fail is given up on
with a logged error and counted as zero: read_csv_with_encoding returns 0
and the file's recognized product group is recorded with count 0 in the
violations map; ingestion of the remaining files in the directory
proceeds unchanged. -/
theorem undecodable_file_zero_entry (files1 files2 : List ReportFile)
    (n : String) (atts : List (Option (List Nat))) (gc : Nat)
    (pname : String)
    (hall : ∀ a ∈ atts, a = none)
    (hgc : extract_group_code n = some gc)
    (hpg : alookup gc productGroupsTable = some pname) :
    read_csv_with_encoding atts = 0
    ∧ process_reports_for_token
        (files1 ++ { name := n, attempts := atts } :: files2)
        = files2.foldl processFile
            (dictSet (process_reports_for_token files1) pname 0) := by
  have hz : read_csv_with_encoding atts = 0 := by
    unfold read_csv_with_encoding
    rw [firstDecoded_all_none atts hall]
  refine ⟨hz, ?_⟩
  have hstep : ∀ viol,
      processFile viol { name := n, attempts := atts } = dictSet viol pname 0 := by
    intro viol
    simp only [processFile, hgc, hpg, hz]
  unfold process_reports_for_token
  rw [List.foldl_append, List.foldl_cons, hstep]

/-- Witness for amended C8: one undecodable file for group 1 followed by a
readable file for group 2. -/
theorem undecodable_file_zero_entry_witness :
    read_csv_with_encoding [none, none, none, none, none] = 0
    ∧ process_reports_for_token
        ([] ++ { name := "violations_group1__x.csv",
                 attempts := [none, none, none, none, none] }
          :: [{ name := "violations_group2__y.csv",
                attempts := [some [0x61, 0x0A, 0x62]] }])
        = [{ name := "violations_group2__y.csv",
             attempts := [some [0x61, 0x0A, 0x62]] }].foldl processFile
            (dictSet (process_reports_for_token []) "Предметы одежды" 0) :=
  undecodable_file_zero_entry []
    [{ name := "violations_group2__y.csv",
       attempts := [some [0x61, 0x0A, 0x62]] }]
    "violations_group1__x.csv" [none, none, none, none, none] 1
    "Предметы одежды" (by decide) rfl rfl

/-! ## C9 lemmas: codec roundtrips -/

theorem mapPartial_none_of_mem {α β : Type} (f : α → Option β) (l : List α)
    (x : α) (hx : x ∈ l) (hf : f x = none) : mapPartial f l = none := by
  induction l with
  | nil => simp at hx
  | cons a t ih =>
    rcases List.mem_cons.mp hx with rfl | hm
    · unfold mapPartial
      rw [hf]
    · unfold mapPartial
      rw [ih hm]
      cases f a <;> rfl

theorem mapPartial_eq_map {α β : Type} (f : α → Option β) (g : α → β)
    (l : List α) (h : ∀ x ∈ l, f x = some (g x)) :
    mapPartial f l = some (l.map g) := by
  induction l with
  | nil => rfl
  | cons a t ih =>
    unfold mapPartial
    rw [h a (List.mem_cons_self a t),
      ih (fun b hb => h b (List.mem_cons_of_mem a hb))]
    rfl

theorem cp1251_byte_roundtrip (c : Nat) (h : sigmaChar c) (b : Nat)
    (he : cp1251EncodeChar c = some b) : cp1251DecodeByte b = some c := by
  rcases h with ⟨hA, -⟩ | ⟨h1, h2⟩
  · unfold cp1251EncodeChar at he
    rw [if_pos hA] at he
    obtain rfl : c = b := Option.some.inj he
    unfold cp1251DecodeByte
    rw [if_pos hA]
  · unfold cp1251EncodeChar at he
    rw [if_neg (by omega), if_pos ⟨h1, h2⟩] at he
    obtain rfl : 0xC0 + (c - 0x410) = b := Option.some.inj he
    unfold cp1251DecodeByte
    rw [if_neg (by omega), if_neg (by omega), if_pos (by omega)]
    have : 0x410 + (0xC0 + (c - 0x410) - 0xC0) = c := by omega
    rw [this]

theorem cp1251_roundtrip (l : List Nat) (h : ∀ c ∈ l, sigmaChar c)
    (bs : List Nat) (henc : cp1251Encode l = some bs) :
    cp1251Decode bs = some l := by
  induction l generalizing bs with
  | nil =>
    obtain rfl : ([] : List Nat) = bs := Option.some.inj henc
    rfl
  | cons c t ih =>
    unfold cp1251Encode mapPartial at henc
    cases hc : cp1251EncodeChar c with
    | none => rw [hc] at henc; cases henc
    | some b =>
      rw [hc] at henc
      cases ht : mapPartial cp1251EncodeChar t with
      | none => rw [ht] at henc; cases henc
      | some bs2 =>
        rw [ht] at henc
        obtain rfl : b :: bs2 = bs := Option.some.inj henc
        unfold cp1251Decode mapPartial
        rw [cp1251_byte_roundtrip c (h c (List.mem_cons_self c t)) b hc]
        have := ih (fun x hx => h x (List.mem_cons_of_mem c hx)) bs2 ht
        unfold cp1251Decode at this
        rw [this]

theorem utf8Encode_cons (c : Nat) (t : List Nat) :
    utf8Encode (c :: t) = utf8EncodeChar c ++ utf8Encode t := rfl

theorem utf8EncodeChar_ascii (c : Nat) (h : c < 0x80) :
    utf8EncodeChar c = [c] := by
  unfold utf8EncodeChar
  rw [if_pos h]

theorem utf8EncodeChar_cyr (c : Nat) (h1 : 0x410 ≤ c) (h2 : c ≤ 0x44F) :
    utf8EncodeChar c = [0xC0 + c / 0x40, 0x80 + c % 0x40] := by
  unfold utf8EncodeChar
  rw [if_neg (by omega), if_pos (by omega)]

theorem utf8_roundtrip (l : List Nat) (h : ∀ c ∈ l, sigmaChar c) :
    utf8Decode (utf8Encode l) = some l := by
  unfold utf8Decode
  induction l with
  | nil => rfl
  | cons c t ih =>
    have htail := ih (fun x hx => h x (List.mem_cons_of_mem c hx))
    rcases h c (List.mem_cons_self c t) with ⟨hA, -⟩ | ⟨h1, h2⟩
    · rw [utf8Encode_cons, utf8EncodeChar_ascii c hA, List.cons_append,
        List.nil_append]
      simp only [utf8DecodeAux, if_pos hA]
      rw [htail]
      rfl
    · rw [utf8Encode_cons, utf8EncodeChar_cyr c h1 h2]
      have hb1a : ¬ (0xC0 + c / 0x40 < 0x80) := by omega
      have hb1b : ¬ (0xC0 + c / 0x40 < 0xC2) := by omega
      have hb1c : 0xC0 + c / 0x40 < 0xE0 := by omega
      have hb2 : 0x80 ≤ 0x80 + c % 0x40 ∧ 0x80 + c % 0x40 < 0xC0 := by omega
      have hval : (0xC0 + c / 0x40 - 0xC0) * 0x40 + (0x80 + c % 0x40 - 0x80)
          = c := by omega
      have hrange : 0x80 ≤ c ∧ c ≤ 0x7FF ∧ ¬ (0xD800 ≤ c ∧ c ≤ 0xDFFF) := by
        omega
      show utf8DecodeAux
        ((0xC0 + c / 0x40) :: (0x80 + c % 0x40) :: utf8Encode t) 0 0 0 0
        = some (c :: t)
      simp only [utf8DecodeAux, if_neg hb1a, if_neg hb1b, if_pos hb1c,
        if_pos hb2, if_pos rfl, hval, if_pos hrange]
      rw [htail]
      rfl

/-! ## C9 lemmas: the mojibake path (utf-8 bytes read as cp1251) -/

theorem punct_defined : ∀ i < 64, i ≠ 24 →
    ((cp1251PunctTable.get? i).getD none).isSome = true := by decide

theorem punctVal_inj : ∀ i < 64, ∀ j < 64, punctVal i = punctVal j → i = j := by
  decide

theorem punctVal_ne_newline : ∀ i < 64, punctVal i ≠ 10 := by decide

theorem sigma_cyr_mod (c : Nat) (h1 : 0x410 ≤ c) (h2 : c ≤ 0x44F) :
    c % 0x40 < 64 ∧ (c ≠ 0x418 → c % 0x40 ≠ 24) ∧ c / 0x40 < 18 ∧ 16 ≤ c / 0x40 := by
  omega

theorem mojChar_ascii (c : Nat) (h : c < 0x80) : mojChar c = [c] := by
  unfold mojChar
  rw [if_pos h]

theorem mojChar_cyr (c : Nat) (h1 : 0x410 ≤ c) (h2 : c ≤ 0x44F) :
    mojChar c = [0x410 + c / 0x40, punctVal (c % 0x40)] := by
  unfold mojChar
  rw [if_neg (by omega)]

theorem mojText_cons (c : Nat) (t : List Nat) :
    mojText (c :: t) = mojChar c ++ mojText t := rfl

theorem cp1251DecodeByte_ascii (c : Nat) (h : c < 0x80) :
    cp1251DecodeByte c = some c := by
  unfold cp1251DecodeByte
  rw [if_pos h]

theorem cp1251DecodeByte_cont (c : Nat) (h1 : 0x410 ≤ c) (h2 : c ≤ 0x44F)
    (hne : c ≠ 0x418) :
    cp1251DecodeByte (0x80 + c % 0x40) = some (punctVal (c % 0x40)) := by
  unfold cp1251DecodeByte
  rw [if_neg (by omega), if_pos (by omega)]
  have hmod := sigma_cyr_mod c h1 h2
  have hd := punct_defined (c % 0x40) hmod.1 (hmod.2.1 hne)
  have harg : 0x80 + c % 0x40 - 0x80 = c % 0x40 := by omega
  rw [harg]
  cases ho : (cp1251PunctTable.get? (c % 0x40)).getD none with
  | none => rw [ho] at hd; cases hd
  | some v =>
    unfold punctVal
    rw [ho]
    rfl

theorem cp1251DecodeByte_lead (c : Nat) (h1 : 0x410 ≤ c) (h2 : c ≤ 0x44F) :
    cp1251DecodeByte (0xC0 + c / 0x40) = some (0x410 + c / 0x40) := by
  unfold cp1251DecodeByte
  rw [if_neg (by omega), if_neg (by omega), if_pos (by omega)]
  have : 0xC0 + c / 0x40 - 0xC0 = c / 0x40 := by omega
  rw [this]

theorem cp1251MapByte_of_decode (b v : Nat) (h : cp1251DecodeByte b = some v) :
    cp1251MapByte b = v := by
  unfold cp1251MapByte
  rw [h]
  rfl

theorem cp1251MapByte_cont (c : Nat) :
    cp1251MapByte (0x80 + c % 0x40) = punctVal (c % 0x40) := by
  unfold cp1251MapByte cp1251DecodeByte punctVal
  rw [if_neg (by omega), if_pos (by omega)]
  have harg : 0x80 + c % 0x40 - 0x80 = c % 0x40 := by omega
  rw [harg]

theorem utf8_bytes_decode (text : List Nat) (h : ∀ c ∈ text, sigmaChar c)
    (hno : 0x418 ∉ text) :
    ∀ b ∈ utf8Encode text, cp1251DecodeByte b = some (cp1251MapByte b) := by
  induction text with
  | nil =>
    intro b hb
    simp [utf8Encode, joinAll] at hb
  | cons c t ih =>
    intro b hb
    have hnoc : c ≠ 0x418 := fun hcc => hno (hcc ▸ List.mem_cons_self c t)
    have hnot : 0x418 ∉ t := fun hm => hno (List.mem_cons_of_mem c hm)
    rw [utf8Encode_cons] at hb
    rcases List.mem_append.mp hb with hb1 | hb2
    · rcases h c (List.mem_cons_self c t) with ⟨hA, -⟩ | ⟨h1, h2⟩
      · rw [utf8EncodeChar_ascii c hA] at hb1
        obtain rfl := List.mem_singleton.mp hb1
        have hd := cp1251DecodeByte_ascii b hA
        rw [cp1251MapByte_of_decode b b hd]
        exact hd
      · rw [utf8EncodeChar_cyr c h1 h2] at hb1
        rcases List.mem_cons.mp hb1 with rfl | hb1b
        · have hd := cp1251DecodeByte_lead c h1 h2
          rw [cp1251MapByte_of_decode _ _ hd]
          exact hd
        · obtain rfl := List.mem_singleton.mp hb1b
          have hd := cp1251DecodeByte_cont c h1 h2 hnoc
          rw [cp1251MapByte_of_decode _ _ hd]
          exact hd
    · exact ih (fun x hx => h x (List.mem_cons_of_mem c hx)) hnot b hb2

theorem utf8_map_moj (text : List Nat) (h : ∀ c ∈ text, sigmaChar c) :
    (utf8Encode text).map cp1251MapByte = mojText text := by
  induction text with
  | nil => rfl
  | cons c t ih =>
    rw [utf8Encode_cons, List.map_append, mojText_cons,
      ih (fun x hx => h x (List.mem_cons_of_mem c hx))]
    congr 1
    rcases h c (List.mem_cons_self c t) with ⟨hA, -⟩ | ⟨h1, h2⟩
    · rw [utf8EncodeChar_ascii c hA, mojChar_ascii c hA]
      show [cp1251MapByte c] = [c]
      rw [cp1251MapByte_of_decode c c (cp1251DecodeByte_ascii c hA)]
    · rw [utf8EncodeChar_cyr c h1 h2, mojChar_cyr c h1 h2]
      show [cp1251MapByte (0xC0 + c / 0x40), cp1251MapByte (0x80 + c % 0x40)]
        = [0x410 + c / 0x40, punctVal (c % 0x40)]
      rw [cp1251MapByte_of_decode _ _ (cp1251DecodeByte_lead c h1 h2),
        cp1251MapByte_cont c]

theorem cp1251_decode_utf8 (text : List Nat) (h : ∀ c ∈ text, sigmaChar c)
    (hno : 0x418 ∉ text) :
    cp1251Decode (utf8Encode text) = some (mojText text) := by
  unfold cp1251Decode
  rw [mapPartial_eq_map cp1251DecodeByte cp1251MapByte _
      (utf8_bytes_decode text h hno),
    utf8_map_moj text h]

theorem mem_98_utf8 (text : List Nat) (h : 0x418 ∈ text) :
    0x98 ∈ utf8Encode text := by
  induction text with
  | nil => simp at h
  | cons c t ih =>
    rw [utf8Encode_cons]
    rcases List.mem_cons.mp h with rfl | hm
    · have : utf8EncodeChar 0x418 = [0xD0, 0x98] := rfl
      rw [this]
      simp
    · exact List.mem_append_right _ (ih hm)

theorem mojText_inj (l1 : List Nat) (h1 : ∀ c ∈ l1, sigmaChar c) :
    ∀ l2, (∀ c ∈ l2, sigmaChar c) → mojText l1 = mojText l2 → l1 = l2 := by
  induction l1 with
  | nil =>
    intro l2 h2 he
    cases l2 with
    | nil => rfl
    | cons c t =>
      rw [mojText_cons] at he
      rcases h2 c (List.mem_cons_self c t) with ⟨hA, -⟩ | ⟨hx, hy⟩
      · rw [mojChar_ascii c hA] at he
        simp [mojText, joinAll] at he
      · rw [mojChar_cyr c hx hy] at he
        simp [mojText, joinAll] at he
  | cons c1 t1 ih =>
    intro l2 h2 he
    cases l2 with
    | nil =>
      rw [mojText_cons] at he
      rcases h1 c1 (List.mem_cons_self c1 t1) with ⟨hA, -⟩ | ⟨hx, hy⟩
      · rw [mojChar_ascii c1 hA] at he
        simp [mojText, joinAll] at he
      · rw [mojChar_cyr c1 hx hy] at he
        simp [mojText, joinAll] at he
    | cons c2 t2 =>
      rw [mojText_cons, mojText_cons] at he
      have ht1 : ∀ c ∈ t1, sigmaChar c :=
        fun x hx => h1 x (List.mem_cons_of_mem c1 hx)
      have ht2 : ∀ c ∈ t2, sigmaChar c :=
        fun x hx => h2 x (List.mem_cons_of_mem c2 hx)
      rcases h1 c1 (List.mem_cons_self c1 t1) with ⟨hA1, -⟩ | ⟨hx1, hy1⟩ <;>
        rcases h2 c2 (List.mem_cons_self c2 t2) with ⟨hA2, -⟩ | ⟨hx2, hy2⟩
      · rw [mojChar_ascii c1 hA1, mojChar_ascii c2 hA2] at he
        simp only [List.cons_append, List.nil_append, List.cons.injEq] at he
        rw [he.1, ih ht1 t2 ht2 he.2]
      · rw [mojChar_ascii c1 hA1, mojChar_cyr c2 hx2 hy2] at he
        simp only [List.cons_append, List.nil_append, List.cons.injEq] at he
        omega
      · rw [mojChar_cyr c1 hx1 hy1, mojChar_ascii c2 hA2] at he
        simp only [List.cons_append, List.nil_append, List.cons.injEq] at he
        omega
      · rw [mojChar_cyr c1 hx1 hy1, mojChar_cyr c2 hx2 hy2] at he
        simp only [List.cons_append, List.nil_append, List.cons.injEq] at he
        obtain ⟨hq, hp, ht⟩ := he
        have hm1 := sigma_cyr_mod c1 hx1 hy1
        have hm2 := sigma_cyr_mod c2 hx2 hy2
        have hmod := punctVal_inj (c1 % 0x40) hm1.1 (c2 % 0x40) hm2.1 hp
        have hc : c1 = c2 := by omega
        rw [hc, ih ht1 t2 ht2 ht]

/-! ## C9 lemmas: line splitting, blankness and counting -/

theorem mojChar_ne_nil (c : Nat) : mojChar c ≠ [] := by
  unfold mojChar
  split <;> simp

theorem mojChar_no_newline (c : Nat) (h : sigmaChar c) (hc : c ≠ 0x0A) :
    ∀ b ∈ mojChar c, b ≠ 0x0A := by
  intro b hb
  rcases h with ⟨hA, -⟩ | ⟨h1, h2⟩
  · rw [mojChar_ascii c hA] at hb
    obtain rfl := List.mem_singleton.mp hb
    exact hc
  · rw [mojChar_cyr c h1 h2] at hb
    rcases List.mem_cons.mp hb with rfl | hb2
    · omega
    · obtain rfl := List.mem_singleton.mp hb2
      exact punctVal_ne_newline (c % 0x40) (by omega)

theorem splitLines_append_noNL (pre : List Nat) (h : ∀ b ∈ pre, b ≠ 0x0A) :
    ∀ t, splitLines (pre ++ t)
      = match splitLines t with
        | [] => if pre = [] then [] else [pre]
        | l :: ls => (pre ++ l) :: ls := by
  induction pre with
  | nil =>
    intro t
    cases hsp : splitLines t <;> simp [hsp]
  | cons b pre2 ih =>
    intro t
    have hb : b ≠ 0x0A := h b (List.mem_cons_self b pre2)
    have ih2 := ih (fun x hx => h x (List.mem_cons_of_mem b hx)) t
    rw [List.cons_append]
    show (if b = 0x0A then ([b] :: splitLines (pre2 ++ t))
      else match splitLines (pre2 ++ t) with
        | [] => [[b]]
        | l :: ls => ((b :: l) :: ls)) = _
    rw [if_neg hb, ih2]
    cases hsp : splitLines t with
    | nil =>
      by_cases hp : pre2 = []
      · subst hp
        simp
      · simp [hp]
    | cons l ls => simp

theorem splitLines_mojText (l : List Nat) (h : ∀ c ∈ l, sigmaChar c) :
    splitLines (mojText l) = (splitLines l).map mojText := by
  induction l with
  | nil => rfl
  | cons c t ih =>
    have iht := ih (fun x hx => h x (List.mem_cons_of_mem c hx))
    rw [mojText_cons]
    by_cases hc : c = 0x0A
    · subst hc
      rw [mojChar_ascii 0x0A (by omega)]
      show splitLines (0x0A :: mojText t) = _
      have e1 : splitLines (0x0A :: mojText t)
          = [0x0A] :: splitLines (mojText t) := by
        show (if (0x0A : Nat) = 0x0A then ([0x0A] :: splitLines (mojText t))
          else _) = _
        rw [if_pos rfl]
      have e2 : splitLines ((0x0A : Nat) :: t) = [0x0A] :: splitLines t := by
        show (if (0x0A : Nat) = 0x0A then ([0x0A] :: splitLines t) else _) = _
        rw [if_pos rfl]
      rw [e1, e2, iht]
      rfl
    · rw [splitLines_append_noNL (mojChar c)
        (mojChar_no_newline c (h c (List.mem_cons_self c t)) hc), iht]
      have e2 : splitLines (c :: t)
          = match splitLines t with
            | [] => [[c]]
            | l :: ls => ((c :: l) :: ls) := by
        show (if c = 0x0A then ([c] :: splitLines t) else _) = _
        rw [if_neg hc]
      rw [e2]
      cases hsp : splitLines t with
      | nil => simp [mojChar_ne_nil c, mojText_cons, mojText, joinAll]
      | cons l0 ls => simp [mojText_cons]

theorem mem_of_mem_splitLines (l : List Nat) :
    ∀ x ∈ splitLines l, ∀ c ∈ x, c ∈ l := by
  induction l with
  | nil =>
    intro x hx
    simp [splitLines] at hx
  | cons d t ih =>
    intro x hx c hc
    have hunf : splitLines (d :: t)
        = (if d = 0x0A then ([d] :: splitLines t)
          else match splitLines t with
            | [] => [[d]]
            | l :: ls => ((d :: l) :: ls)) := rfl
    rw [hunf] at hx
    by_cases hd : d = 0x0A
    · rw [if_pos hd] at hx
      rcases List.mem_cons.mp hx with rfl | hx2
      · obtain rfl := List.mem_singleton.mp hc
        exact List.mem_cons_self c t
      · exact List.mem_cons_of_mem d (ih x hx2 c hc)
    · rw [if_neg hd] at hx
      cases hsp : splitLines t with
      | nil =>
        rw [hsp] at hx
        obtain rfl := List.mem_singleton.mp hx
        obtain rfl := List.mem_singleton.mp hc
        exact List.mem_cons_self c t
      | cons l0 ls =>
        rw [hsp] at hx
        rcases List.mem_cons.mp hx with rfl | hx2
        · rcases List.mem_cons.mp hc with rfl | hc2
          · exact List.mem_cons_self c t
          · exact List.mem_cons_of_mem d
              (ih l0 (hsp ▸ List.mem_cons_self l0 ls) c hc2)
        · exact List.mem_cons_of_mem d
            (ih x (hsp ▸ List.mem_cons_of_mem l0 hx2) c hc)

theorem isPySpace_false_mid (c : Nat) (h1 : 0xA0 < c) (h2 : c < 0x1680) :
    isPySpace c = false := by
  apply decide_eq_false
  intro hmem
  simp only [List.mem_cons, List.not_mem_nil, or_false] at hmem
  omega

theorem hasVisibleChar_mojChar (c : Nat) (h : sigmaChar c) :
    hasVisibleChar (mojChar c) = !isPySpace c := by
  rcases h with ⟨hA, -⟩ | ⟨h1, h2⟩
  · rw [mojChar_ascii c hA]
    simp [hasVisibleChar]
  · rw [mojChar_cyr c h1 h2]
    have hp : isPySpace (0x410 + c / 0x40) = false :=
      isPySpace_false_mid _ (by omega) (by omega)
    have hcc : isPySpace c = false := isPySpace_false_mid c (by omega) (by omega)
    simp [hasVisibleChar, hp, hcc]

theorem hasVisibleChar_mojText (l : List Nat) (h : ∀ c ∈ l, sigmaChar c) :
    hasVisibleChar (mojText l) = hasVisibleChar l := by
  induction l with
  | nil => rfl
  | cons c t ih =>
    rw [mojText_cons]
    have iht := ih (fun x hx => h x (List.mem_cons_of_mem c hx))
    have happ : hasVisibleChar (mojChar c ++ mojText t)
        = (hasVisibleChar (mojChar c) || hasVisibleChar (mojText t)) := by
      unfold hasVisibleChar
      exact List.any_append
    rw [happ, hasVisibleChar_mojChar c (h c (List.mem_cons_self c t)), iht]
    rfl

theorem find?_map_corr {α β : Type} (f : α → β) (p : α → Bool) (q : β → Bool)
    (lines : List α) (h : ∀ l ∈ lines, q (f l) = p l) :
    (lines.map f).find? q = (lines.find? p).map f := by
  induction lines with
  | nil => rfl
  | cons a t ih =>
    have ha := h a (List.mem_cons_self a t)
    rw [List.map_cons, List.find?_cons, List.find?_cons]
    cases hp : p a with
    | true =>
      rw [ha.trans hp]
      rfl
    | false =>
      rw [ha.trans hp]
      exact ih (fun b hb => h b (List.mem_cons_of_mem a hb))

theorem filter_map_length {α β : Type} (f : α → β) (p : α → Bool)
    (q : β → Bool) (lines : List α) (h : ∀ l ∈ lines, q (f l) = p l) :
    ((lines.map f).filter q).length = (lines.filter p).length := by
  induction lines with
  | nil => rfl
  | cons a t ih =>
    have ha := h a (List.mem_cons_self a t)
    have iht := ih (fun b hb => h b (List.mem_cons_of_mem a hb))
    rw [List.map_cons, List.filter_cons, List.filter_cons, ha]
    cases hp : p a <;> simp [hp, iht]

theorem countRows_mojText (text : List Nat) (h : ∀ c ∈ text, sigmaChar c) :
    countViolationRows (mojText text) = countViolationRows text := by
  unfold countViolationRows
  rw [splitLines_mojText text h]
  have hsub : ∀ l ∈ splitLines text, ∀ c ∈ l, sigmaChar c :=
    fun l hl c hc => h c (mem_of_mem_splitLines text l hl c hc)
  have hvis : ∀ l ∈ splitLines text,
      hasVisibleChar (mojText l) = hasVisibleChar l :=
    fun l hl => hasVisibleChar_mojText l (hsub l hl)
  cases hsp : splitLines text with
  | nil => simp
  | cons l0 ls =>
    simp only [List.isEmpty_cons, List.map_cons, Bool.false_eq_true,
      if_false]
    have hvis2 : ∀ l ∈ l0 :: ls,
        hasVisibleChar (mojText l) = hasVisibleChar l :=
      fun l hl => hvis l (hsp ▸ hl)
    have hfind := find?_map_corr mojText hasVisibleChar hasVisibleChar
      (l0 :: ls) hvis2
    rw [List.map_cons] at hfind
    rw [hfind]
    cases hf : (l0 :: ls).find? hasVisibleChar with
    | none => rfl
    | some header =>
      have hmemh : header ∈ l0 :: ls := List.mem_of_find?_eq_some hf
      have hsubh : ∀ c ∈ header, sigmaChar c := hsub header (hsp ▸ hmemh)
      have hfl := filter_map_length mojText
        (fun l => hasVisibleChar l && l ≠ header)
        (fun l => hasVisibleChar l && l ≠ mojText header)
        (l0 :: ls) ?_
      · rw [List.map_cons] at hfl
        show (List.filter (fun l => hasVisibleChar l && l ≠ mojText header)
            (mojText l0 :: List.map mojText ls)).length
          = (List.filter (fun l => hasVisibleChar l && l ≠ header)
            (l0 :: ls)).length
        exact hfl
      · intro l hl
        show (hasVisibleChar (mojText l) && decide (mojText l ≠ mojText header))
          = (hasVisibleChar l && decide (l ≠ header))
        rw [hvis2 l hl]
        by_cases he : l = header
        · subst he
          simp
        · have hne : mojText l ≠ mojText header := fun hc =>
            he (mojText_inj l (hsub l (hsp ▸ hl)) header hsubh hc)
          simp [he, hne]

/-! ## C9: the main encoding-robustness theorem -/

theorem utf8SigDecode_eq_of_head (b : Nat) (rest : List Nat) (h : b ≠ 0xEF) :
    utf8SigDecode (b :: rest) = utf8Decode (b :: rest) := by
  unfold utf8SigDecode
  split
  · next heq =>
    injection heq with h1 h2
    exact absurd h1 h
  · rfl

/-- C9 counterexample: the claim, quantified over every CSV content, is
false.  For the text Ама, newline, no-break space, newline (code points
410 43C 430 0A A0 0A, no И), the cp1251 file is C0 EC E0 0A A0 0A and
counts 0 rows: the second line is a lone no-break space, which strip()
removes, so the line is blank.  The utf-8 file is D0 90 D0 BC D0 B0 0A C2
A0 0A, which the first attempted encoding cp1251 decodes successfully as
mojibake; its second line В plus no-break space has the visible letter В
(the cp1251 reading of byte C2), so it is counted, giving 1 row. -/
theorem csv_count_encoding_counterexample :
    cp1251Encode [0x410, 0x43C, 0x430, 0x0A, 0xA0, 0x0A]
        = some [0xC0, 0xEC, 0xE0, 0x0A, 0xA0, 0x0A]
    ∧ read_csv_bytes [0xC0, 0xEC, 0xE0, 0x0A, 0xA0, 0x0A] = 0
    ∧ read_csv_bytes (utf8Encode [0x410, 0x43C, 0x430, 0x0A, 0xA0, 0x0A]) = 1 := by
  refine ⟨by decide, by decide, by decide⟩

/-- C9 amended: the equal-row-count property holds for every CSV text
over ASCII (without carriage return) and the Cyrillic block А..я — the
content the stated scenario (Cyrillic headers and data rows) uses.  For
such a text, read_csv_with_encoding tries the prioritized encoding list
in order and returns the same count of non-blank non-header lines for the
cp1251 bytes and for the utf-8 bytes of the text.  Outside this alphabet
the property can fail: a line of no-break spaces is blank in the cp1251
file but its utf-8 bytes decode under cp1251 to a non-blank mojibake
line. -/
theorem csv_count_encoding_agnostic (text : List Nat)
    (hsig : ∀ c ∈ text, sigmaChar c) (bs : List Nat)
    (henc : cp1251Encode text = some bs) :
    read_csv_bytes bs = read_csv_bytes (utf8Encode text) := by
  have hdec : cp1251Decode bs = some text := cp1251_roundtrip text hsig bs henc
  have hlhs : read_csv_bytes bs = countViolationRows text := by
    unfold read_csv_bytes read_csv_with_encoding decodeAttempts firstDecoded
    rw [hdec]
  rw [hlhs]
  by_cases hmem : (0x418 : Nat) ∈ text
  · have h98 : cp1251Decode (utf8Encode text) = none := by
      unfold cp1251Decode
      exact mapPartial_none_of_mem cp1251DecodeByte (utf8Encode text) 0x98
        (mem_98_utf8 text hmem) rfl
    have hsg : utf8SigDecode (utf8Encode text) = some text := by
      cases text with
      | nil => simp at hmem
      | cons c t =>
        have hrt := utf8_roundtrip (c :: t) hsig
        rcases hsig c (List.mem_cons_self c t) with ⟨hA, -⟩ | ⟨h1, h2⟩
        · rw [utf8Encode_cons, utf8EncodeChar_ascii c hA,
            List.cons_append, List.nil_append] at hrt ⊢
          rw [utf8SigDecode_eq_of_head c _ (by omega)]
          exact hrt
        · rw [utf8Encode_cons, utf8EncodeChar_cyr c h1 h2,
            List.cons_append, List.cons_append, List.nil_append] at hrt ⊢
          rw [utf8SigDecode_eq_of_head _ _ (by omega)]
          exact hrt
    unfold read_csv_bytes read_csv_with_encoding decodeAttempts firstDecoded
    rw [h98, hsg]
    rfl
  · have hmoj := cp1251_decode_utf8 text hsig hmem
    unfold read_csv_bytes read_csv_with_encoding decodeAttempts firstDecoded
    rw [hmoj]
    exact (countRows_mojText text hsig).symm

/-- Witness for C9: the text Имя, newline, a: cp1251 bytes C8 EC FF 0A 61
and the utf-8 bytes of the same text give the same row count. -/
theorem csv_count_encoding_agnostic_witness :
    read_csv_bytes [0xC8, 0xEC, 0xFF, 0x0A, 0x61]
      = read_csv_bytes (utf8Encode [0x418, 0x43C, 0x44F, 0x0A, 0x61]) :=
  csv_count_encoding_agnostic [0x418, 0x43C, 0x44F, 0x0A, 0x61]
    (by decide) [0xC8, 0xEC, 0xFF, 0x0A, 0x61] rfl

end Markirovka
